import Mathlib

/-
Shallow embedding of the roll-expression analysis and critical-hit
derivation core of src/betterrollssw5e/scripts/utils/utils.js.

The repository operates on Roll objects produced by an external roll
evaluation engine (the host platform).  The data model below (terms,
die results, modifier codes) is the one described in the spec's data
model section; the functions processRoll, eventToAdvantage,
getRollState, findD20Term, parseD20Formula, getBaseCritRoll and
getCritRoll are translated from the source.  Where the external engine
itself is needed (parsing a formula string into terms, re-serialising
terms to a formula, evaluating with or without the maximize flag) it is
modelled from the spec's external-interface contract; those definitions
carry an explicit comment.
-/

/-- Modifier code on a dice term.  The spec's data model lists the
modifier codes keep-highest, keep-lowest and reroll. -/
inductive DMod where
  | kh
  | kl
  | r
deriving DecidableEq

/-- One individual die outcome within a dice term: a numeric value, a
discarded flag and a rerolled flag. -/
structure DieResult where
  result : Nat
  rerolled : Bool
  discarded : Bool
deriving DecidableEq

/-- A term of a parsed roll expression: dice group, flat number,
operator, pool of nested rolls, or a nested sub-roll.  Any operand may
carry a flavor annotation string. -/
inductive Term where
  | dice (number : Nat) (faces : Nat) (modifiers : List DMod)
      (results : List DieResult) (flavor : Option String)
  | num (n : Nat) (flavor : Option String)
  | op (plus : Bool)
  | pool (rolls : List Term)
  | roll (terms : List Term)

/-- A Roll object: an ordered sequence of terms plus (once evaluated) a
total and the host's ignored flag. -/
structure BRRoll where
  terms : List Term
  total : Int
  ignored : Bool

/-- The dice getter of a Roll: all dice terms, collected recursively
through pools and nested sub-rolls. -/
def diceOf : List Term → List Term
  | [] => []
  | Term.pool rs :: rest => diceOf rs ++ diceOf rest
  | Term.roll ts :: rest => diceOf ts ++ diceOf rest
  | Term.dice n f m res fl :: rest => Term.dice n f m res fl :: diceOf rest
  | Term.num _ _ :: rest => diceOf rest
  | Term.op _ :: rest => diceOf rest

/-- The critChecks selector of processRoll: true for all dice, or an
explicit list of face counts to examine. -/
inductive CritChecks where
  | all
  | only (faces : List Nat)

/-- critChecks == true || critChecks.includes(d.faces) -/
def selects : CritChecks → Nat → Bool
  | CritChecks.all, _ => true
  | CritChecks.only xs, f => xs.contains f

/-- threshold || d.faces: a JavaScript falsy threshold (absent or zero)
falls back to the die's own face count. -/
def jsOr (threshold : Option Nat) (faces : Nat) : Nat :=
  match threshold with
  | none => faces
  | some k => if k = 0 then faces else k

/-- The inner loop of processRoll over one die's results: rerolled
results are filtered out; a result at or above the effective threshold
increments high, otherwise a result equal to 1 increments low. -/
def tallyResults (eff : Nat) (hl : Nat × Nat) : List DieResult → Nat × Nat
  | [] => hl
  | x :: rest =>
    if x.rerolled then tallyResults eff hl rest
    else if eff ≤ x.result then tallyResults eff (hl.1 + 1, hl.2) rest
    else if x.result = 1 then tallyResults eff (hl.1, hl.2 + 1) rest
    else tallyResults eff hl rest

/-- The outer loop of processRoll over roll.dice: only dice with more
than one face that the critChecks selector picks contribute. -/
def tallyDice (threshold : Option Nat) (critChecks : CritChecks)
    (hl : Nat × Nat) : List Term → Nat × Nat
  | [] => hl
  | Term.dice _ f _ res _ :: rest =>
    if 1 < f ∧ selects critChecks f then
      tallyDice threshold critChecks (tallyResults (jsOr threshold f) hl res) rest
    else
      tallyDice threshold critChecks hl rest
  | _ :: rest => tallyDice threshold critChecks hl rest

/-- Classification of the two tallies at the end of processRoll. -/
def critTypeOf (high low : Nat) : Option String :=
  if 0 < high ∧ 0 < low then some "mixed"
  else if 0 < high then some "success"
  else if 0 < low then some "failure"
  else none

/-- The record processRoll returns. -/
structure RollCrit where
  roll : BRRoll
  total : Int
  ignored : Option Bool
  critType : Option String
  isCrit : Bool

/-- Utils.processRoll: tests an evaluated roll to see if it crit,
failed, or was mixed.  Returns none when no roll is supplied. -/
def processRoll (roll : Option BRRoll) (threshold : Option Nat)
    (critChecks : CritChecks) (bonus : Option BRRoll) : Option RollCrit :=
  match roll with
  | none => none
  | some r =>
    let hl := tallyDice threshold critChecks (0, 0) (diceOf r.terms)
    some ⟨r, r.total + (bonus.map BRRoll.total).getD 0,
      if r.ignored then some true else none,
      critTypeOf hl.1 hl.2,
      0 < hl.1⟩

/-- Face count of a term (dice terms only). -/
def Term.facesOf : Term → Nat
  | Term.dice _ f _ _ _ => f
  | _ => 0

/-- Results of a term (dice terms only). -/
def Term.resultsOf : Term → List DieResult
  | Term.dice _ _ _ res _ => res
  | _ => []

/-- The active (non-rerolled) results of a dice term. -/
def activeResults (t : Term) : List DieResult :=
  t.resultsOf.filter (fun x => !x.rerolled)

/-- The dice of a roll that qualify for outcome classification: face
count above one und selected by critChecks. -/
def selectedDice (critChecks : CritChecks) (ts : List Term) : List Term :=
  (diceOf ts).filter (fun t => decide (1 < t.facesOf) && selects critChecks t.facesOf)

/-- The high tally exactly as claim C1 words it: active results at or
above the effective threshold, over the selected dice. -/
def claimHigh (threshold : Option Nat) (critChecks : CritChecks)
    (ts : List Term) : Nat :=
  ((selectedDice critChecks ts).map (fun t =>
    (activeResults t).countP (fun x => jsOr threshold t.facesOf ≤ x.result))).sum

/-- The low tally exactly as claim C1 words it: active results exactly
equal to 1, over the selected dice. -/
def claimLow (critChecks : CritChecks) (ts : List Term) : Nat :=
  ((selectedDice critChecks ts).map (fun t =>
    (activeResults t).countP (fun x => x.result = 1))).sum

/-- processRoll as claim C1 states it, with the low tally counting
every active result equal to 1. -/
def processRollClaimC1 (roll : Option BRRoll) (threshold : Option Nat)
    (critChecks : CritChecks) (bonus : Option BRRoll) : Option RollCrit :=
  match roll with
  | none => none
  | some r =>
    let high := claimHigh threshold critChecks r.terms
    let low := claimLow critChecks r.terms
    some ⟨r, r.total + (bonus.map BRRoll.total).getD 0,
      if r.ignored then some true else none,
      critTypeOf high low,
      0 < high⟩

/-- The amended low tally: active results equal to 1 that are below the
effective threshold (a result of 1 that already meets the threshold is
counted high instead, by the else-if in the source). -/
def amendedLow (threshold : Option Nat) (critChecks : CritChecks)
    (ts : List Term) : Nat :=
  ((selectedDice critChecks ts).map (fun t =>
    (activeResults t).countP (fun x =>
      x.result = 1 && !(decide (jsOr threshold t.facesOf ≤ x.result))))).sum

/-- processRoll as amended claim C1 states it. -/
def processRollAmendedC1 (roll : Option BRRoll) (threshold : Option Nat)
    (critChecks : CritChecks) (bonus : Option BRRoll) : Option RollCrit :=
  match roll with
  | none => none
  | some r =>
    let high := claimHigh threshold critChecks r.terms
    let low := amendedLow threshold critChecks r.terms
    some ⟨r, r.total + (bonus.map BRRoll.total).getD 0,
      if r.ignored then some true else none,
      critTypeOf high low,
      0 < high⟩

/-- Is this term a DiceTerm with faces == 20? -/
def isD20 : Term → Bool
  | Term.dice _ f _ _ _ => f == 20
  | _ => false

/-- The worker of Utils.findD20Term: scan a children list (a Roll's
terms or a PoolTerm's rolls); a term with faces 20 is returned, and a
term that itself has a terms or rolls property is searched recursively
before the scan moves on. -/
def findD20InList : List Term → Option Term
  | [] => none
  | Term.pool rs :: rest =>
    match findD20InList rs with
    | some t => some t
    | none => findD20InList rest
  | Term.roll ts :: rest =>
    match findD20InList ts with
    | some t => some t
    | none => findD20InList rest
  | t :: rest => if isD20 t then some t else findD20InList rest

/-- Utils.findD20Term: returns none on an absent roll. -/
def findD20Term : Option BRRoll → Option Term
  | none => none
  | some r => findD20InList r.terms

/-- Specification-side list of every faces-20 dice term in depth-first
preorder, used to state what "the first d20 term" means. -/
def d20List : List Term → List Term
  | [] => []
  | Term.pool rs :: rest => d20List rs ++ d20List rest
  | Term.roll ts :: rest => d20List ts ++ d20List rest
  | t :: rest => (if isD20 t then [t] else []) ++ d20List rest

/-- Dice count of a term (dice terms only). -/
def Term.numberOf : Term → Nat
  | Term.dice n _ _ _ _ => n
  | _ => 0

/-- Modifier list of a term (dice terms only). -/
def Term.modsOf : Term → List DMod
  | Term.dice _ _ m _ _ => m
  | _ => []

/-- The in-place mutation parseD20Formula performs on the found d20
term: count forced to 1, keep-highest and keep-lowest modifiers
filtered out. -/
def normD20Term : Term → Term
  | Term.dice _ f mods res fl =>
    Term.dice 1 f (mods.filter (fun m => !(m = DMod.kh || m = DMod.kl))) res fl
  | t => t

/-- Pure rendition of the tree mutation: find the first d20 term in the
same traversal order as findD20InList, return it together with the tree
in which it has been rewritten by normD20Term. -/
def replaceFirstD20 : List Term → Option (Term × List Term)
  | [] => none
  | Term.pool rs :: rest =>
    match replaceFirstD20 rs with
    | some (t, rs2) => some (t, Term.pool rs2 :: rest)
    | none =>
      match replaceFirstD20 rest with
      | some (t, rest2) => some (t, Term.pool rs :: rest2)
      | none => none
  | Term.roll ts :: rest =>
    match replaceFirstD20 ts with
    | some (t, ts2) => some (t, Term.roll ts2 :: rest)
    | none =>
      match replaceFirstD20 rest with
      | some (t, rest2) => some (t, Term.roll ts :: rest2)
      | none => none
  | t :: rest =>
    if isD20 t then some (t, normD20Term t :: rest)
    else
      match replaceFirstD20 rest with
      | some (x, rest2) => some (x, t :: rest2)
      | none => none

/-- Most-significant-first decimal digits of a positive natural number,
with enough fuel; the fuel argument only drives the recursion. -/
def natCharsF : Nat → Nat → List Char
  | 0, _ => []
  | _, 0 => []
  | fuel + 1, n => natCharsF fuel (n / 10) ++ [Nat.digitChar (n % 10)]

/-- Decimal digits of a natural number.  Modelled from the spec: the
external engine re-serialises terms to a canonical formula string. -/
def natChars (n : Nat) : List Char :=
  if n = 0 then ['0'] else natCharsF n n

/-- Serialisation of a modifier code. -/
def modChars : DMod → List Char
  | DMod.kh => ['k', 'h']
  | DMod.kl => ['k', 'l']
  | DMod.r => ['r']

/-- Serialisation of a flavor annotation. -/
def flavorChars : Option String → List Char
  | none => []
  | some s => '[' :: s.toList ++ [']']

mutual

/-- Serialisation of one term.  Modelled from the spec: the external
engine's formula getter; a dice term renders as NdF followed by its
modifier codes, results are not part of the formula. -/
def termChars : Term → List Char
  | Term.dice n f mods _ fl =>
    natChars n ++ 'd' :: natChars f ++ (mods.map modChars).flatten ++ flavorChars fl
  | Term.num n fl => natChars n ++ flavorChars fl
  | Term.op true => ['+']
  | Term.op false => ['-']
  | Term.pool rs => Char.ofNat 123 :: poolChars rs ++ [Char.ofNat 125]
  | Term.roll ts => rollChars ts

/-- Pool children joined by commas. -/
def poolChars : List Term → List Char
  | [] => []
  | [t] => termChars t
  | t :: rest => termChars t ++ ',' :: poolChars rest

/-- Terms of a roll joined by single spaces.  Modelled from the spec:
the external engine's canonical formula string. -/
def rollChars : List Term → List Char
  | [] => []
  | [t] => termChars t
  | t :: rest => termChars t ++ ' ' :: rollChars rest

end

/-- The formula string of a term list. -/
def rollFormula (ts : List Term) : String := ⟨rollChars ts⟩

/-- What Utils.parseD20Formula reports next to the rewritten roll. -/
structure D20Out where
  formula : String
  numRolls : Option Nat
  rollState : Option String

/-- Utils.parseD20Formula, as the pure normalize operation the spec
describes: the returned roll carries the documented in-place mutation
(d20 count forced to 1, keep modifiers stripped), the record carries
the recomputed formula, the original d20 count and the roll state. -/
def parseD20Formula (roll : BRRoll) : BRRoll × D20Out :=
  match replaceFirstD20 roll.terms with
  | none => (roll, ⟨rollFormula roll.terms, none, none⟩)
  | some (t, ts2) =>
    (⟨ts2, roll.total, roll.ignored⟩,
      ⟨rollFormula ts2, some t.numberOf,
        if t.modsOf.contains DMod.kh then some "highest"
        else if t.modsOf.contains DMod.kl then some "lowest"
        else none⟩)

/-- The input-device modifier state handed to eventToAdvantage. -/
structure RollEvent where
  shiftKey : Bool
  ctrlKey : Bool
  metaKey : Bool

/-- The advantage/disadvantage pair eventToAdvantage returns. -/
structure AdvDis where
  advantage : Nat
  disadvantage : Nat

/-- Utils.eventToAdvantage. -/
def eventToAdvantage (ev : RollEvent) : AdvDis :=
  if ev.shiftKey then ⟨1, 0⟩
  else if ev.ctrlKey || ev.metaKey then ⟨0, 1⟩
  else ⟨0, 0⟩

/-- The destructured parameter object of Utils.getRollState.  Flag
fields are naturals so that the numeric advantage and disadvantage
values produced by eventToAdvantage can be passed back in; zero is the
JavaScript falsy case. -/
structure RollStateArgs where
  rollState : Option String
  event : Option RollEvent
  advantage : Nat
  disadvantage : Nat
  adv : Nat
  disadv : Nat

/-- JavaScript truthiness of the rollState argument: present and not
the empty string. -/
def truthyStr : Option String → Bool
  | none => false
  | some s => s ≠ ""

/-- Utils.getRollState: explicit state, then advantage flags, then
disadvantage flags, then translated input-device modifiers via a
recursive call, else none. -/
def getRollState (a : RollStateArgs) : Option String :=
  if truthyStr a.rollState then a.rollState
  else if a.advantage ≠ 0 || a.adv ≠ 0 then some "highest"
  else if a.disadvantage ≠ 0 || a.disadv ≠ 0 then some "lowest"
  else
    match h : a.event with
    | some ev =>
      let m := eventToAdvantage ev
      if m.advantage ≠ 0 || m.disadvantage ≠ 0 then
        getRollState ⟨none, none, m.advantage, m.disadvantage, 0, 0⟩
      else none
    | none => none
termination_by if a.event.isSome then 1 else 0
decreasing_by simp [h]

/-- The roll-state resolution contract exactly as the spec words it:
explicit state wins, then the advantage flag, then the disadvantage
flag, then the translated device modifiers (primary modifier to
advantage, secondary to disadvantage), else none. -/
def resolveRollStateSpec (a : RollStateArgs) : Option String :=
  if truthyStr a.rollState then a.rollState
  else if a.advantage ≠ 0 || a.adv ≠ 0 then some "highest"
  else if a.disadvantage ≠ 0 || a.disadv ≠ 0 then some "lowest"
  else
    match a.event with
    | some ev =>
      if ev.shiftKey then some "highest"
      else if ev.ctrlKey || ev.metaKey then some "lowest"
      else none
    | none => none

/-- Numeric value of a decimal digit character. -/
def digitVal (c : Char) : Nat := c.toNat - 48

/-- Decimal decoding of a digit run. -/
def decodeNat (ds : List Char) : Nat := ds.foldl (fun a c => 10 * a + digitVal c) 0

/-- Modelled from the spec: the external engine's parser reads the
modifier codes attached to a dice term. -/
def parseMods : List Char → List DMod × List Char
  | 'k' :: 'h' :: rest =>
    let p := parseMods rest
    (DMod.kh :: p.1, p.2)
  | 'k' :: 'l' :: rest =>
    let p := parseMods rest
    (DMod.kl :: p.1, p.2)
  | 'r' :: rest =>
    let p := parseMods rest
    (DMod.r :: p.1, p.2)
  | cs => ([], cs)

/-- Modelled from the spec: an optional bracketed flavor annotation
after a term. -/
def parseFlavor : List Char → Option (Option String × List Char)
  | '[' :: rest =>
    match rest.dropWhile (fun c => !(c = ']')) with
    | ']' :: r2 => some (some ⟨rest.takeWhile (fun c => !(c = ']'))⟩, r2)
    | _ => none
  | cs => some (none, cs)

/-- Modelled from the spec: the external engine parses one operand, a
dice term NdF with modifiers or a flat number, optionally flavored. -/
def parseTermC (cs : List Char) : Option (Term × List Char) :=
  if (cs.takeWhile Char.isDigit).isEmpty then none
  else if (cs.dropWhile Char.isDigit).head? = some 'd' then
    if ((cs.dropWhile Char.isDigit).tail.takeWhile Char.isDigit).isEmpty then none
    else
      match parseFlavor (parseMods ((cs.dropWhile Char.isDigit).tail.dropWhile Char.isDigit)).2 with
      | some (fl, r4) =>
        some (Term.dice (decodeNat (cs.takeWhile Char.isDigit))
          (decodeNat ((cs.dropWhile Char.isDigit).tail.takeWhile Char.isDigit))
          (parseMods ((cs.dropWhile Char.isDigit).tail.dropWhile Char.isDigit)).1 [] fl, r4)
      | none => none
  else
    match parseFlavor (cs.dropWhile Char.isDigit) with
    | some (fl, r4) => some (Term.num (decodeNat (cs.takeWhile Char.isDigit)) fl, r4)
    | none => none

theorem twdw_len (p : Char → Bool) (l : List Char) :
    (l.takeWhile p).length + (l.dropWhile p).length = l.length := by
  have h := congrArg List.length (List.takeWhile_append_dropWhile p l)
  rw [List.length_append] at h
  exact h

theorem dw_le (p : Char → Bool) (l : List Char) :
    (l.dropWhile p).length ≤ l.length := by
  have := twdw_len p l
  omega

theorem parseMods_sublen (cs : List Char) : (parseMods cs).2.length ≤ cs.length := by
  induction cs using parseMods.induct <;> simp_all [parseMods] <;> omega

theorem parseFlavor_sublen {cs r : List Char} {fl : Option String}
    (h : parseFlavor cs = some (fl, r)) : r.length ≤ cs.length := by
  unfold parseFlavor at h
  split at h
  · rename_i rest
    split at h
    · rename_i r2 hdrop
      have hle := dw_le (fun c => !(c = ']')) rest
      rw [hdrop] at hle
      simp at h
      obtain ⟨h1, h2⟩ := h
      subst h2
      simp at hle ⊢
      omega
    · exact absurd h (by simp)
  · simp at h
    obtain ⟨h1, h2⟩ := h
    subst h2
    exact le_refl _

theorem parseTermC_lt {cs r : List Char} {t : Term}
    (h : parseTermC cs = some (t, r)) : r.length < cs.length := by
  unfold parseTermC at h
  have hsplit := twdw_len Char.isDigit cs
  split at h
  · exact absurd h (by simp)
  · rename_i hne
    have hpos : 0 < (cs.takeWhile Char.isDigit).length := by
      cases hcs : cs.takeWhile Char.isDigit with
      | nil => rw [hcs] at hne; simp at hne
      | cons a l => simp [hcs]
    have htail : (cs.dropWhile Char.isDigit).tail.length ≤ (cs.dropWhile Char.isDigit).length := by
      cases cs.dropWhile Char.isDigit <;> simp
    split at h
    · split at h
      · exact absurd h (by simp)
      · split at h
        · rename_i fl r4 hfl
          simp at h
          obtain ⟨h1, h2⟩ := h
          subst h2
          have h4 := parseFlavor_sublen hfl
          have h5 := parseMods_sublen ((cs.dropWhile Char.isDigit).tail.dropWhile Char.isDigit)
          have h6 := dw_le Char.isDigit (cs.dropWhile Char.isDigit).tail
          omega
        · exact absurd h (by simp)
    · split at h
      · rename_i fl r4 hfl
        simp at h
        obtain ⟨h1, h2⟩ := h
        subst h2
        have h4 := parseFlavor_sublen hfl
        omega
      · exact absurd h (by simp)

/-- Modelled from the spec: the external engine parses the rest of a
formula as a sequence of operator and operand pairs; anything else is a
malformed formula, a hard failure surfaced by the engine.  The fuel
argument only drives the recursion: every iteration consumes at least
two characters, so any fuel above the input length is enough. -/
def parseTermsLoopF : Nat → List Term → List Char → Option (List Term)
  | 0, _, _ => none
  | fuel + 1, acc, cs =>
    match cs.dropWhile (fun c => c = ' ') with
    | [] => some acc.reverse
    | c :: r =>
      if c = '+' || c = '-' then
        match parseTermC (r.dropWhile (fun c2 => c2 = ' ')) with
        | some (t, r2) => parseTermsLoopF fuel (t :: Term.op (c = '+') :: acc) r2
        | none => none
      else none

/-- The operator and operand pair loop with its fuel supplied. -/
def parseTermsLoop (acc : List Term) (cs : List Char) : Option (List Term) :=
  parseTermsLoopF (cs.length + 1) acc cs

/-- Modelled from the spec: the external engine parses a formula into
an operand followed by operator and operand pairs. -/
def parseTermsC (cs : List Char) : Option (List Term) :=
  match parseTermC (cs.dropWhile (fun c => c = ' ')) with
  | some (t, r) => parseTermsLoop [t] r
  | none => none

/-- Modelled from the spec: new Roll(formula) parses a formula string
into terms; none models the parse failure the engine raises. -/
def parseRoll (s : String) : Option (List Term) := parseTermsC s.toList

/-- A plus or minus sign. -/
def isPM (c : Char) : Bool := c = '+' || c = '-'

/-- A character of an attribute reference, [a-zA-Z0-9.] in the source
regex. -/
def isRefChar (c : Char) : Bool := c.isAlphanum || c = '.'

/-- One attempted match, at the start of cs, of the source regex
[+-]+\s*(?:@[a-zA-Z0-9.]+|[0-9]+(?![Dd])): one or more signs, optional
whitespace, then either an attribute reference or a digit run that must
not be followed by a dice marker.  A greedy digit run that hits a dice
marker backtracks exactly one digit, which then satisfies the negative
lookahead; a single digit before a dice marker cannot match at all.
Returns the remainder after the matched text. -/
def matchAt (cs : List Char) : Option (List Char) :=
  if (cs.takeWhile isPM).isEmpty then none
  else if ((cs.dropWhile isPM).dropWhile Char.isWhitespace).head? = some '@' then
    if (((cs.dropWhile isPM).dropWhile Char.isWhitespace).tail.takeWhile isRefChar).isEmpty then
      none
    else some (((cs.dropWhile isPM).dropWhile Char.isWhitespace).tail.dropWhile isRefChar)
  else
    if (((cs.dropWhile isPM).dropWhile Char.isWhitespace).takeWhile Char.isDigit).isEmpty then
      none
    else
      match ((cs.dropWhile isPM).dropWhile Char.isWhitespace).dropWhile Char.isDigit with
      | c :: r3 =>
        if c = 'd' || c = 'D' then
          if 2 ≤ (((cs.dropWhile isPM).dropWhile Char.isWhitespace).takeWhile Char.isDigit).length then
            some ((((cs.dropWhile isPM).dropWhile Char.isWhitespace).takeWhile Char.isDigit).getLastD '0' :: c :: r3)
          else none
        else some (c :: r3)
      | [] => some []

theorem matchAt_lt {cs r : List Char} (h : matchAt cs = some r) :
    r.length < cs.length := by
  unfold matchAt at h
  have hsplit := twdw_len isPM cs
  split at h
  · exact absurd h (by simp)
  · rename_i hne
    have hpos : 0 < (cs.takeWhile isPM).length := by
      cases hcs : cs.takeWhile isPM with
      | nil => rw [hcs] at hne; simp at hne
      | cons a l => simp [hcs]
    have hws := dw_le Char.isWhitespace (cs.dropWhile isPM)
    have htail : ((cs.dropWhile isPM).dropWhile Char.isWhitespace).tail.length ≤
        ((cs.dropWhile isPM).dropWhile Char.isWhitespace).length := by
      cases (cs.dropWhile isPM).dropWhile Char.isWhitespace <;> simp
    split at h
    · split at h
      · exact absurd h (by simp)
      · simp at h
        subst h
        have := dw_le isRefChar ((cs.dropWhile isPM).dropWhile Char.isWhitespace).tail
        omega
    · split at h
      · exact absurd h (by simp)
      · rename_i hdig
        have hdsplit := twdw_len Char.isDigit ((cs.dropWhile isPM).dropWhile Char.isWhitespace)
        split at h
        · rename_i c r3 hdrop
          have hlen : ((cs.dropWhile isPM).dropWhile Char.isWhitespace).dropWhile Char.isDigit = c :: r3 := hdrop
          split at h
          · split at h
            · rename_i hds2
              simp at h
              subst h
              have hlen2 : (((cs.dropWhile isPM).dropWhile Char.isWhitespace).dropWhile Char.isDigit).length = r3.length + 1 := by
                rw [hlen]
                simp
              simp only [List.length_cons]
              omega
            · exact absurd h (by simp)
          · simp at h
            subst h
            have hdpos : 0 < (((cs.dropWhile isPM).dropWhile Char.isWhitespace).takeWhile Char.isDigit).length := by
              cases hcs : ((cs.dropWhile isPM).dropWhile Char.isWhitespace).takeWhile Char.isDigit with
              | nil => rw [hcs] at hdig; simp at hdig
              | cons a l => simp [hcs]
            have hlen2 : (((cs.dropWhile isPM).dropWhile Char.isWhitespace).dropWhile Char.isDigit).length = r3.length + 1 := by
              rw [hlen]
              simp
            simp only [List.length_cons]
            omega
        · simp at h
          subst h
          simp
          omega

/-- The global replace of the crit regex: scan left to right, remove
each match and go on scanning after it, pass every other character
through.  The fuel argument only drives the recursion: every step
consumes at least one character. -/
def regexStripF : Nat → List Char → List Char
  | 0, _ => []
  | _, [] => []
  | fuel + 1, c :: cs =>
    match matchAt (c :: cs) with
    | some rest => regexStripF fuel rest
    | none => c :: regexStripF fuel cs

/-- The global crit-regex replace with its fuel supplied. -/
def regexStrip (cs : List Char) : List Char := regexStripF (cs.length + 1) cs

/-- Clamp an oracle value into the valid range of a die. -/
def clampDie (f v : Nat) : Nat := min f (max 1 v)

/-- Modelled from the spec: the external engine evaluates a term list,
filling each dice term's results either with the maximum face value
(maximize flag) or with values drawn from the supplied oracle, which
stands for the engine's randomness.  Pool terms are not produced by the
modelled parser and pass through unevaluated. -/
def fillTerms (maxi : Bool) (oracle : List Nat) : List Term → List Term × List Nat
  | [] => ([], oracle)
  | Term.dice n f mods _ fl :: rest =>
    let vals := if maxi then List.replicate n f
      else (List.range n).map (fun i => clampDie f (oracle.getD i 1))
    let o2 := if maxi then oracle else oracle.drop n
    let p := fillTerms maxi o2 rest
    (Term.dice n f mods (vals.map (fun v => ⟨v, false, false⟩)) fl :: p.1, p.2)
  | t :: rest =>
    let p := fillTerms maxi oracle rest
    (t :: p.1, p.2)

/-- Modelled from the spec: the total of one evaluated dice term, with
the keep-highest and keep-lowest modifiers keeping one die. -/
def dieValue (f : Nat) (mods : List DMod) (res : List DieResult) : Int :=
  if mods.contains DMod.kh then ((res.map DieResult.result).foldl max 0 : Nat)
  else if mods.contains DMod.kl then
    (match res.map DieResult.result with
      | [] => (0 : Nat)
      | v :: rest => rest.foldl min v)
  else ((res.map DieResult.result).foldl (· + ·) 0 : Nat)

/-- Modelled from the spec: the numeric value one term contributes to a
total.  Operators carry no value of their own (they set the sign in the
fold); pool terms are not produced by the modelled parser. -/
def termValue : Term → Int
  | Term.dice _ f mods res _ => dieValue f mods res
  | Term.num n _ => (n : Int)
  | _ => 0

/-- Modelled from the spec: fold a term sequence into a total, the
current operator giving each operand its sign. -/
def totalAux : List Term → Bool → Int → Int
  | [], _, acc => acc
  | Term.op b :: rest, _, acc => totalAux rest b acc
  | t :: rest, sign, acc =>
    totalAux rest sign (if sign then acc + termValue t else acc - termValue t)

/-- Modelled from the spec: the evaluated total of a term list. -/
def totalOfTerms (ts : List Term) : Int := totalAux ts true 0

/-- Modelled from the spec: Roll#evaluate, returning the evaluated roll
and the unconsumed part of the oracle. -/
def evalRoll (maxi : Bool) (oracle : List Nat) (ts : List Term) : BRRoll × List Nat :=
  let p := fillTerms maxi oracle ts
  (⟨p.1, totalOfTerms p.1, false⟩, p.2)

/-- Modelled from the spec: the total of a formula evaluated with every
die at its maximum face value. -/
def maxTotal (ts : List Term) : Int := totalOfTerms (fillTerms true [] ts).1

/-- The flavor strip in getBaseCritRoll: term.options = {} on every
top-level term of the parsed base formula. -/
def stripFlavorTerm : Term → Term
  | Term.dice n f m res _ => Term.dice n f m res none
  | Term.num n _ => Term.num n none
  | t => t

/-- getBaseCritRoll's loop over strippedRoll.terms. -/
def stripFlavor (ts : List Term) : List Term := ts.map stripFlavorTerm

/-- JavaScript Number#toString on an integer value. -/
def intChars (i : Int) : List Char :=
  if i < 0 then '-' :: natChars i.natAbs else natChars i.toNat

/-- Is this term a flat numeric term? -/
def isNumTerm : Term → Bool
  | Term.num _ _ => true
  | _ => false

/-- ItemUtils.getBaseCritRoll: parse the base formula, strip flavor,
remove operator-prefixed flat modifiers with the crit regex, reparse;
a lone flat number yields none (no dice to amplify), a malformed
intermediate formula is a hard failure of the engine. -/
def getBaseCritRoll (baseFormula : String) : Except Unit (Option (List Term)) :=
  if baseFormula = "" then Except.ok none
  else
    match parseRoll baseFormula with
    | none => Except.error ()
    | some ts =>
      match parseTermsC (regexStrip (rollChars (stripFlavor ts))) with
      | none => Except.error ()
      | some critTerms =>
        match critTerms with
        | [Term.num _ _] => Except.ok none
        | _ => Except.ok (some critTerms)

/-- Roll#alter(1, extra) as getCritRoll calls it: every dice term's
count is increased by the extra crit dice; a zero increment is the
JavaScript falsy case and leaves the count untouched. -/
def alterTerms (add : Nat) (ts : List Term) : List Term :=
  ts.map fun t =>
    match t with
    | Term.dice n f m res fl => Term.dice (if add = 0 then n else n + add) f m res fl
    | x => x

/-- ItemUtils.getCritRoll: derive the critical damage roll from a base
formula and its evaluated total under the configured critBehavior
policy.  The settings provider is abstracted into the critBehavior
argument and the engine's randomness into the oracle. -/
def getCritRoll (baseFormula : String) (baseTotal : Int) (critBehavior : String)
    (extraCritDice : Option Nat) (oracle : List Nat) : Except Unit (Option BRRoll) :=
  match getBaseCritRoll baseFormula with
  | Except.error e => Except.error e
  | Except.ok none => Except.ok none
  | Except.ok (some critTerms) =>
    let altered := alterTerms (extraCritDice.getD 0) critTerms
    let rolled := evalRoll false oracle altered
    if critBehavior = "2" then
      match parseRoll (rollFormula rolled.1.terms) with
      | none => Except.error ()
      | some ts2 => Except.ok (some (evalRoll true [] ts2).1)
    else if critBehavior = "3" then
      match parseRoll baseFormula with
      | none => Except.error ()
      | some baseTs =>
        match parseRoll (rollFormula rolled.1.terms ++ "+" ++ (⟨intChars (maxTotal baseTs - baseTotal)⟩ : String)) with
        | none => Except.error ()
        | some ts3 => Except.ok (some (evalRoll true [] ts3).1)
    else if critBehavior = "4" then
      match parseRoll baseFormula with
      | none => Except.error ()
      | some baseTs =>
        match parseRoll (rollFormula rolled.1.terms ++ "+" ++ (⟨intChars (maxTotal baseTs - baseTotal)⟩ : String)) with
        | none => Except.error ()
        | some ts4 => Except.ok (some (evalRoll false rolled.2 ts4).1)
    else Except.ok (some rolled.1)

/-- Is the flavor annotation serialisable without ambiguity (no closing
bracket inside it)? -/
def flavorOKb : Option String → Bool
  | none => true
  | some s => !(s.toList.contains ']')

/-- A well-formed operand of the modelled engine: a dice or flat term,
unevaluated, with a serialisable flavor. -/
def wfOperand : Term → Bool
  | Term.dice _ _ _ res fl => res.isEmpty && flavorOKb fl
  | Term.num _ fl => flavorOKb fl
  | _ => false

/-- Well-formed operator and operand pairs after the first term of a
roll. -/
inductive WFPairs : List Term → Prop
  | nil : WFPairs []
  | cons (b : Bool) (t : Term) (ps : List Term) :
      wfOperand t = true → WFPairs ps → WFPairs (Term.op b :: t :: ps)

/-- A well-formed roll of the modelled engine: an operand followed by
operator and operand pairs. -/
def WFRoll : List Term → Prop
  | [] => False
  | t :: ps => wfOperand t = true ∧ WFPairs ps

/-- The dice-only portion of the operator and operand pairs: pairs
whose operand is a dice term survive, pairs whose operand is a flat
number are removed by the crit regex. -/
def dicePairs : List Term → List Term
  | Term.op b :: Term.dice n f m res fl :: ps =>
    Term.op b :: Term.dice n f m res fl :: dicePairs ps
  | Term.op _ :: Term.num _ _ :: ps => dicePairs ps
  | _ => []

/-- Every dice term that follows an operator has a single-digit count:
the restriction under which the crit regex's negative lookahead cannot
backtrack into a dice token. -/
def smallDiceAfterOp : List Term → Bool
  | [] => true
  | Term.op _ :: Term.dice n _ _ _ _ :: ps => decide (n < 10) && smallDiceAfterOp ps
  | Term.op _ :: Term.num _ _ :: ps => smallDiceAfterOp ps
  | _ => false

theorem tallyResults_eq (eff : Nat) (res : List DieResult) (h l : Nat) :
    tallyResults eff (h, l) res =
      (h + (res.filter (fun x => !x.rerolled)).countP (fun x => decide (eff ≤ x.result)),
       l + (res.filter (fun x => !x.rerolled)).countP
            (fun x => x.result = 1 && !(decide (eff ≤ x.result)))) := by
  induction res generalizing h l with
  | nil => simp [tallyResults]
  | cons x rest ih =>
    by_cases hx : x.rerolled
    · simp [tallyResults, hx, ih]
    · by_cases hge : eff ≤ x.result
      · simp [tallyResults, hx, hge, ih, List.countP_cons]
        omega
      · by_cases h1 : x.result = 1
        · have h2 : ¬eff ≤ 1 := by rw [← h1]; exact hge
          simp [tallyResults, hx, hge, h1, h2, ih, List.countP_cons]
          omega
        · simp [tallyResults, hx, hge, h1, ih, List.countP_cons]

theorem tallyDice_eq (threshold : Option Nat) (cc : CritChecks) (ds : List Term)
    (h l : Nat) :
    tallyDice threshold cc (h, l) ds =
      (h + ((ds.filter (fun t => decide (1 < t.facesOf) && selects cc t.facesOf)).map
          (fun t => (activeResults t).countP
            (fun x => decide (jsOr threshold t.facesOf ≤ x.result)))).sum,
       l + ((ds.filter (fun t => decide (1 < t.facesOf) && selects cc t.facesOf)).map
          (fun t => (activeResults t).countP
            (fun x => x.result = 1 && !(decide (jsOr threshold t.facesOf ≤ x.result))))).sum) := by
  induction ds generalizing h l with
  | nil => simp [tallyDice]
  | cons t rest ih =>
    cases t with
    | dice n f m res fl =>
      by_cases hsel : 1 < f ∧ selects cc f = true
      · rw [tallyDice, if_pos hsel, tallyResults_eq, ih]
        simp [Term.facesOf, hsel.1, hsel.2, activeResults, Term.resultsOf]
        omega
      · rw [tallyDice, if_neg hsel, ih]
        have : (decide (1 < Term.facesOf (Term.dice n f m res fl)) &&
            selects cc (Term.facesOf (Term.dice n f m res fl))) = false := by
          simp [Term.facesOf]
          intro hf
          rcases Decidable.not_and_iff_or_not.mp hsel with hc | hc
          · exact absurd hf hc
          · simpa using hc
        simp [this]
    | num k fl => simp [tallyDice, ih, Term.facesOf]
    | op b => simp [tallyDice, ih, Term.facesOf]
    | pool rs => simp [tallyDice, ih, Term.facesOf]
    | roll ts2 => simp [tallyDice, ih, Term.facesOf]

/-- C1 (amended): processRoll agrees everywhere with the claimed
classifier once the low tally is amended to count only active results
equal to 1 that are below the effective threshold; the high tally,
the selection of dice, the classification of the two tallies, isCrit
and the null propagation are as the claim states them. -/
theorem claim_C1_amended_thm (roll : Option BRRoll) (threshold : Option Nat)
    (critChecks : CritChecks) (bonus : Option BRRoll) :
    processRoll roll threshold critChecks bonus =
      processRollAmendedC1 roll threshold critChecks bonus := by
  cases roll with
  | none => rfl
  | some r =>
    simp only [processRoll, processRollAmendedC1, claimHigh, amendedLow, selectedDice,
      tallyDice_eq, Nat.zero_add]

/-- C1 (counterexample): at threshold 1 on a d20 that rolled a 1, the
source counts the 1 in the high tally (1 >= threshold) and classifies
the roll "success", while the claim's low tally counts it as well and
classifies the roll "mixed". -/
theorem claim_C1_counterexample :
    (processRoll (some ⟨[Term.dice 1 20 [] [⟨1, false, false⟩] none], 1, false⟩)
        (some 1) CritChecks.all none).map RollCrit.critType ≠
      (processRollClaimC1 (some ⟨[Term.dice 1 20 [] [⟨1, false, false⟩] none], 1, false⟩)
        (some 1) CritChecks.all none).map RollCrit.critType := by
  simp only [processRoll, processRollClaimC1, claimHigh, claimLow, selectedDice, diceOf,
    Option.map]
  decide

/-- C10: with threshold 1 every active result on a selected die is at
or above the threshold, so the low tally stays 0 and processRoll never
classifies "failure" or "mixed"; and a threshold of 0 is treated as
unset, behaving exactly like an absent threshold. -/
theorem claim_C10_thm :
    (∀ (roll : Option BRRoll) (cc : CritChecks) (bonus : Option BRRoll) (o : RollCrit),
      processRoll roll (some 1) cc bonus = some o →
        o.critType ≠ some "failure" ∧ o.critType ≠ some "mixed") ∧
    (∀ (roll : Option BRRoll) (cc : CritChecks) (bonus : Option BRRoll),
      processRoll roll (some 0) cc bonus = processRoll roll none cc bonus) := by
  constructor
  · intro roll cc bonus o ho
    cases roll with
    | none => simp [processRoll] at ho
    | some r =>
      simp only [processRoll] at ho
      have hlow : (tallyDice (some 1) cc (0, 0) (diceOf r.terms)).2 = 0 := by
        rw [tallyDice_eq]
        simp only [Nat.zero_add]
        apply List.sum_eq_zero
        intro k hk
        simp only [List.mem_map] at hk
        obtain ⟨t, ht, hkk⟩ := hk
        rw [← hkk]
        apply List.countP_eq_zero.2
        intro x hx
        simp [jsOr]
        omega
      obtain rfl := Option.some.inj ho
      simp only [RollCrit.critType]
      rw [hlow]
      unfold critTypeOf
      by_cases hh : 0 < (tallyDice (some 1) cc (0, 0) (diceOf r.terms)).1 <;>
        simp [hh]
  · intro roll cc bonus
    cases roll with
    | none => rfl
    | some r =>
      simp only [processRoll]
      have heq : tallyDice (some 0) cc (0, 0) (diceOf r.terms) =
          tallyDice none cc (0, 0) (diceOf r.terms) := by
        rw [tallyDice_eq, tallyDice_eq]
        simp [jsOr]
      rw [heq]

/-- C10 (witness): a d20 roll of 1 at threshold 1 classifies "success",
not "failure" or "mixed"; threshold 0 and an absent threshold agree on
the same roll. -/
theorem claim_C10_witness :
    ((⟨⟨[Term.dice 1 20 [] [⟨1, false, false⟩] none], 1, false⟩, 1, none,
        some "success", true⟩ : RollCrit).critType ≠ some "failure" ∧
      (⟨⟨[Term.dice 1 20 [] [⟨1, false, false⟩] none], 1, false⟩, 1, none,
        some "success", true⟩ : RollCrit).critType ≠ some "mixed") ∧
    processRoll (some ⟨[Term.dice 1 20 [] [⟨1, false, false⟩] none], 1, false⟩)
        (some 0) CritChecks.all none =
      processRoll (some ⟨[Term.dice 1 20 [] [⟨1, false, false⟩] none], 1, false⟩)
        none CritChecks.all none :=
  ⟨claim_C10_thm.1 (some ⟨[Term.dice 1 20 [] [⟨1, false, false⟩] none], 1, false⟩)
      CritChecks.all none
      ⟨⟨[Term.dice 1 20 [] [⟨1, false, false⟩] none], 1, false⟩, 1, none,
        some "success", true⟩ (by simp only [processRoll, diceOf]; rfl),
    claim_C10_thm.2 (some ⟨[Term.dice 1 20 [] [⟨1, false, false⟩] none], 1, false⟩)
      CritChecks.all none⟩

/-- C6: getRollState implements the spec's precedence contract: an
explicitly supplied roll state is returned unchanged even when
advantage or disadvantage flags are set; otherwise a set advantage flag
yields "highest", else a set disadvantage flag yields "lowest", else
the input-device modifiers are translated (primary modifier to
advantage, secondary to disadvantage) and re-resolved, else none. -/
theorem claim_C6_thm (a : RollStateArgs) :
    getRollState a = resolveRollStateSpec a := by
  rw [getRollState, resolveRollStateSpec]
  by_cases h1 : truthyStr a.rollState = true
  · simp [h1]
  · by_cases h2 : a.advantage = 0
    case neg => simp [h1, h2]
    by_cases h3 : a.adv = 0
    case neg => simp [h1, h2, h3]
    by_cases h4 : a.disadvantage = 0
    case neg => simp [h1, h2, h3, h4]
    by_cases h5 : a.disadv = 0
    case neg => simp [h1, h2, h3, h4, h5]
    cases he : a.event with
    | none => simp [h1, h2, h3, h4, h5, he]
    | some ev =>
      by_cases hs : ev.shiftKey = true <;> by_cases hc : ev.ctrlKey = true <;>
        by_cases hmk : ev.metaKey = true <;>
          simp [h1, h2, h3, h4, h5, he, hs, hc, hmk, eventToAdvantage, getRollState,
            truthyStr]

theorem findD20_eq_d20List (ts : List Term) :
    findD20InList ts = (d20List ts).head? := by
  induction ts using findD20InList.induct with
  | case1 => simp [findD20InList, d20List]
  | case2 rs rest t hm ihrs =>
    rw [findD20InList, d20List, List.head?_append, ← ihrs, hm]
    simp
  | case3 rs rest hm ihrs ihrest =>
    rw [findD20InList, d20List, List.head?_append, ← ihrs, hm]
    simp [ihrest]
  | case4 ts2 rest t hm ihts =>
    rw [findD20InList, d20List, List.head?_append, ← ihts, hm]
    simp
  | case5 ts2 rest hm ihts ihrest =>
    rw [findD20InList, d20List, List.head?_append, ← ihts, hm]
    simp [ihrest]
  | case6 t rest hnp hnr ht =>
    cases t with
    | dice n f m res fl =>
      rw [findD20InList, d20List]
      all_goals first
        | exact hnp
        | exact hnr
        | simp [ht]
    | num k fl => simp [isD20] at ht
    | op b => simp [isD20] at ht
    | pool rs => exact absurd rfl (hnp rs)
    | roll ts2 => exact absurd rfl (hnr ts2)
  | case7 t rest hnp hnr ht ihrest =>
    cases t with
    | dice n f m res fl =>
      rw [findD20InList, d20List]
      all_goals first
        | exact hnp
        | exact hnr
        | simp [ht, ihrest]
    | num k fl =>
      rw [findD20InList, d20List]
      all_goals first
        | exact hnp
        | exact hnr
        | simp [ht, ihrest]
    | op b =>
      rw [findD20InList, d20List]
      all_goals first
        | exact hnp
        | exact hnr
        | simp [ht, ihrest]
    | pool rs => exact absurd rfl (hnp rs)
    | roll ts2 => exact absurd rfl (hnr ts2)

theorem isD20_normD20 (t : Term) : isD20 (normD20Term t) = isD20 t := by
  cases t <;> simp [normD20Term, isD20]

theorem normD20_idem (t : Term) : normD20Term (normD20Term t) = normD20Term t := by
  cases t <;> simp [normD20Term, List.filter_filter]

theorem replaceFirstD20_spec (ts : List Term) :
    (replaceFirstD20 ts = none ∧ findD20InList ts = none) ∨
    (∃ t ts2, replaceFirstD20 ts = some (t, ts2) ∧ findD20InList ts = some t ∧
      findD20InList ts2 = some (normD20Term t) ∧
      replaceFirstD20 ts2 = some (normD20Term t, ts2)) := by
  induction ts using replaceFirstD20.induct with
  | case1 =>
    left
    exact ⟨by simp [replaceFirstD20], by simp [findD20InList]⟩
  | case2 rs rest t0 rest2 h ihrs =>
    rcases ihrs with ⟨hn, _⟩ | ⟨t', ts2', hr, hf, hf2, hr2⟩
    · simp [h] at hn
    · right
      refine ⟨t', Term.pool ts2' :: rest, ?_, ?_, ?_, ?_⟩
      · rw [replaceFirstD20, hr]
      · rw [findD20InList, hf]
      · rw [findD20InList, hf2]
      · rw [replaceFirstD20, hr2]
  | case3 rs rest hrn t0 rest2 h ihrs ihrest =>
    rcases ihrs with ⟨_, hfn⟩ | ⟨t', ts2', hr, _, _, _⟩
    · rcases ihrest with ⟨hn2, _⟩ | ⟨t', ts2', hr, hf, hf2, hr2⟩
      · simp [h] at hn2
      · right
        refine ⟨t', Term.pool rs :: ts2', ?_, ?_, ?_, ?_⟩
        · rw [replaceFirstD20, hrn, hr]
        · rw [findD20InList, hfn, hf]
        · rw [findD20InList, hfn, hf2]
        · rw [replaceFirstD20, hrn, hr2]
    · simp [hrn] at hr
  | case4 rs rest hrn hrestn ihrs ihrest =>
    rcases ihrs with ⟨_, hfn⟩ | ⟨t', ts2', hr, _, _, _⟩
    · rcases ihrest with ⟨_, hfn2⟩ | ⟨t', ts2', hr, _, _, _⟩
      · left
        exact ⟨by rw [replaceFirstD20, hrn, hrestn], by rw [findD20InList, hfn, hfn2]⟩
      · simp [hrestn] at hr
    · simp [hrn] at hr
  | case5 ts0 rest t0 rest2 h ihts =>
    rcases ihts with ⟨hn, _⟩ | ⟨t', ts2', hr, hf, hf2, hr2⟩
    · simp [h] at hn
    · right
      refine ⟨t', Term.roll ts2' :: rest, ?_, ?_, ?_, ?_⟩
      · rw [replaceFirstD20, hr]
      · rw [findD20InList, hf]
      · rw [findD20InList, hf2]
      · rw [replaceFirstD20, hr2]
  | case6 ts0 rest hrn t0 rest2 h ihts ihrest =>
    rcases ihts with ⟨_, hfn⟩ | ⟨t', ts2', hr, _, _, _⟩
    · rcases ihrest with ⟨hn2, _⟩ | ⟨t', ts2', hr, hf, hf2, hr2⟩
      · simp [h] at hn2
      · right
        refine ⟨t', Term.roll ts0 :: ts2', ?_, ?_, ?_, ?_⟩
        · rw [replaceFirstD20, hrn, hr]
        · rw [findD20InList, hfn, hf]
        · rw [findD20InList, hfn, hf2]
        · rw [replaceFirstD20, hrn, hr2]
    · simp [hrn] at hr
  | case7 ts0 rest hrn hrestn ihts ihrest =>
    rcases ihts with ⟨_, hfn⟩ | ⟨t', ts2', hr, _, _, _⟩
    · rcases ihrest with ⟨_, hfn2⟩ | ⟨t', ts2', hr, _, _, _⟩
      · left
        exact ⟨by rw [replaceFirstD20, hrn, hrestn], by rw [findD20InList, hfn, hfn2]⟩
      · simp [hrestn] at hr
    · simp [hrn] at hr
  | case8 t rest hnp hnr ht =>
    right
    refine ⟨t, normD20Term t :: rest, ?_, ?_, ?_, ?_⟩
    · cases t <;> simp_all [replaceFirstD20, isD20]
    · cases t <;> simp_all [findD20InList, isD20]
    · cases t <;> simp_all [findD20InList, normD20Term, isD20]
    · cases t <;> simp_all [replaceFirstD20, normD20Term, isD20, List.filter_filter]
  | case9 t rest hnp hnr ht t1 rest2 h ihrest =>
    rcases ihrest with ⟨hn, _⟩ | ⟨t', ts2', hr, hf, hf2, hr2⟩
    · simp [h] at hn
    · right
      refine ⟨t', t :: ts2', ?_, ?_, ?_, ?_⟩
      · cases t <;> simp_all [replaceFirstD20, isD20]
      · cases t <;> simp_all [findD20InList, isD20]
      · cases t <;> simp_all [findD20InList, isD20]
      · cases t <;> simp_all [replaceFirstD20, isD20]
  | case10 t rest hnp hnr ht hrestn ihrest =>
    rcases ihrest with ⟨_, hfn⟩ | ⟨t', ts2', hr, _, _, _⟩
    · left
      constructor
      · cases t <;> simp_all [replaceFirstD20, isD20]
      · cases t <;> simp_all [findD20InList, isD20]
    · simp [hrestn] at hr

theorem d20List_mem (ts : List Term) (t : Term) (h : t ∈ d20List ts) :
    isD20 t = true := by
  induction ts using d20List.induct with
  | case1 => simp [d20List] at h
  | case2 rs rest ih1 ih2 =>
    rw [d20List] at h
    rcases List.mem_append.mp h with h1 | h2
    · exact ih1 h1
    · exact ih2 h2
  | case3 ts0 rest ih1 ih2 =>
    rw [d20List] at h
    rcases List.mem_append.mp h with h1 | h2
    · exact ih1 h1
    · exact ih2 h2
  | case4 t2 rest hnp hnr ih =>
    have hh : d20List (t2 :: rest) = (if isD20 t2 then [t2] else []) ++ d20List rest := by
      cases t2 with
      | pool rs => exact absurd rfl (hnp rs)
      | roll ts0 => exact absurd rfl (hnr ts0)
      | dice n f m res fl => rw [d20List] <;> exact fun _ hx => Term.noConfusion hx
      | num n fl => rw [d20List] <;> exact fun _ hx => Term.noConfusion hx
      | op b => rw [d20List] <;> exact fun _ hx => Term.noConfusion hx
    rw [hh] at h
    rcases List.mem_append.mp h with h1 | h2
    · by_cases hd : isD20 t2 = true
      · simp [hd] at h1
        rw [h1]
        exact hd
      · simp [hd] at h1
    · exact ih h2

theorem findD20_isD20 {ts : List Term} {t : Term} (h : findD20InList ts = some t) :
    isD20 t = true := by
  rw [findD20_eq_d20List] at h
  exact d20List_mem ts t (List.mem_of_mem_head? h)

/-- C9: findD20Term performs a depth-first search: on any term list it
returns exactly the head of the preorder list of faces-20 dice terms
(so the first one found, or none when no such term exists anywhere in
the tree), every member of that list is a faces-20 dice term, and an
absent input propagates to an absent result. -/
theorem claim_C9_thm :
    (∀ ts : List Term, findD20InList ts = (d20List ts).head?) ∧
    findD20Term none = none ∧
    (∀ r : BRRoll, findD20Term (some r) = (d20List r.terms).head?) ∧
    (∀ (ts : List Term) (t : Term), t ∈ d20List ts → isD20 t = true) := by
  refine ⟨findD20_eq_d20List, rfl, ?_, d20List_mem⟩
  intro r
  rw [findD20Term, findD20_eq_d20List]

/-- C9 (witness): on a roll whose d20 is nested inside a pool, the
locator returns the head of the preorder d20 list, and that nested term
is a faces-20 dice term. -/
theorem claim_C9_witness :
    findD20Term (some ⟨[Term.pool [Term.roll [Term.dice 1 20 [] [] none]],
        Term.op true, Term.num 1 none], 0, false⟩) =
      (d20List [Term.pool [Term.roll [Term.dice 1 20 [] [] none]],
        Term.op true, Term.num 1 none]).head? ∧
    isD20 (Term.dice 1 20 [] [] none) = true :=
  ⟨claim_C9_thm.2.2.1 ⟨[Term.pool [Term.roll [Term.dice 1 20 [] [] none]],
      Term.op true, Term.num 1 none], 0, false⟩,
    claim_C9_thm.2.2.2 [Term.dice 1 20 [] [] none] (Term.dice 1 20 [] [] none)
      (by simp [d20List, isD20])⟩

/-- C5: on an expression whose first d20 term has count 2 and the
keep-highest modifier, parseD20Formula reports numRolls 2 and roll
state "highest", and its formula is the formula of the rewritten
expression, whose d20 term now has count 1 and neither keep-highest nor
keep-lowest; on an expression with no d20 term it returns only the
unmodified formula with numRolls and rollState absent. -/
theorem claim_C5_thm :
    (∀ (r : BRRoll) (t : Term), findD20InList r.terms = some t →
      t.numberOf = 2 → DMod.kh ∈ t.modsOf →
      (parseD20Formula r).2.numRolls = some 2 ∧
      (parseD20Formula r).2.rollState = some "highest" ∧
      (parseD20Formula r).2.formula = rollFormula (parseD20Formula r).1.terms ∧
      ∃ t2, findD20InList (parseD20Formula r).1.terms = some t2 ∧
        t2.numberOf = 1 ∧ DMod.kh ∉ t2.modsOf ∧ DMod.kl ∉ t2.modsOf) ∧
    (∀ r : BRRoll, findD20InList r.terms = none →
      parseD20Formula r = (r, ⟨rollFormula r.terms, none, none⟩)) := by
  constructor
  · intro r t hfind hnum hkh
    rcases replaceFirstD20_spec r.terms with ⟨_, hfn⟩ | ⟨t', ts2', hr, hf, hf2, hr2⟩
    · rw [hfind] at hfn
      exact absurd hfn (by simp)
    · obtain rfl : t' = t := Option.some.inj (hf.symm.trans hfind)
      have hd20 : isD20 t' = true := findD20_isD20 hfind
      have hcontains : t'.modsOf.contains DMod.kh = true := List.elem_iff.mpr hkh
      have hout : parseD20Formula r =
          (⟨ts2', r.total, r.ignored⟩,
            ⟨rollFormula ts2', some t'.numberOf,
              if t'.modsOf.contains DMod.kh then some "highest"
              else if t'.modsOf.contains DMod.kl then some "lowest"
              else none⟩) := by
        simp only [parseD20Formula, hr]
      rw [hout]
      refine ⟨by rw [hnum], by rw [if_pos hcontains], rfl, normD20Term t', hf2,
        ?_, ?_, ?_⟩
      · cases t' with
        | dice n f m res fl => simp [normD20Term, Term.numberOf]
        | num n fl => simp [isD20] at hd20
        | op b => simp [isD20] at hd20
        | pool rs => simp [isD20] at hd20
        | roll ts0 => simp [isD20] at hd20
      · cases t' with
        | dice n f m res fl => simp [normD20Term, Term.modsOf, List.mem_filter]
        | num n fl => simp [isD20] at hd20
        | op b => simp [isD20] at hd20
        | pool rs => simp [isD20] at hd20
        | roll ts0 => simp [isD20] at hd20
      · cases t' with
        | dice n f m res fl => simp [normD20Term, Term.modsOf, List.mem_filter]
        | num n fl => simp [isD20] at hd20
        | op b => simp [isD20] at hd20
        | pool rs => simp [isD20] at hd20
        | roll ts0 => simp [isD20] at hd20
  · intro r hnone
    rcases replaceFirstD20_spec r.terms with ⟨hrn, _⟩ | ⟨t', ts2', hr, hf, _, _⟩
    · simp only [parseD20Formula, hrn]
    · rw [hnone] at hf
      exact absurd hf (by simp)

/-- C5 (witness): on 2d20kh + 3 the normalizer reports two rolls with
advantage and rewrites the d20 term to a single unmodified die; on a
formula with no d20 term it returns only the formula. -/
theorem claim_C5_witness :
    ((parseD20Formula ⟨[Term.dice 2 20 [DMod.kh] [] none, Term.op true,
        Term.num 3 none], 0, false⟩).2.numRolls = some 2 ∧
      (parseD20Formula ⟨[Term.dice 2 20 [DMod.kh] [] none, Term.op true,
        Term.num 3 none], 0, false⟩).2.rollState = some "highest" ∧
      (parseD20Formula ⟨[Term.dice 2 20 [DMod.kh] [] none, Term.op true,
        Term.num 3 none], 0, false⟩).2.formula =
        rollFormula (parseD20Formula ⟨[Term.dice 2 20 [DMod.kh] [] none,
          Term.op true, Term.num 3 none], 0, false⟩).1.terms ∧
      ∃ t2, findD20InList (parseD20Formula ⟨[Term.dice 2 20 [DMod.kh] [] none,
          Term.op true, Term.num 3 none], 0, false⟩).1.terms = some t2 ∧
        t2.numberOf = 1 ∧ DMod.kh ∉ t2.modsOf ∧ DMod.kl ∉ t2.modsOf) ∧
    parseD20Formula ⟨[Term.num 4 none], 0, false⟩ =
      (⟨[Term.num 4 none], 0, false⟩,
        ⟨rollFormula [Term.num 4 none], none, none⟩) :=
  ⟨claim_C5_thm.1 ⟨[Term.dice 2 20 [DMod.kh] [] none, Term.op true,
      Term.num 3 none], 0, false⟩ (Term.dice 2 20 [DMod.kh] [] none)
      (by simp [findD20InList, isD20]) rfl (by simp [Term.modsOf]),
    claim_C5_thm.2 ⟨[Term.num 4 none], 0, false⟩
      (by simp [findD20InList, isD20])⟩

/-- C8: parseD20Formula is idempotent: run on the expression its first
run produced, it returns the same formula and the same expression, with
rollState absent and numRolls absent or equal to 1. -/
theorem claim_C8_thm (r : BRRoll) :
    (parseD20Formula (parseD20Formula r).1).2.formula = (parseD20Formula r).2.formula ∧
    (parseD20Formula (parseD20Formula r).1).1 = (parseD20Formula r).1 ∧
    (parseD20Formula (parseD20Formula r).1).2.rollState = none ∧
    ((parseD20Formula (parseD20Formula r).1).2.numRolls = none ∨
      (parseD20Formula (parseD20Formula r).1).2.numRolls = some 1) := by
  rcases replaceFirstD20_spec r.terms with ⟨hrn, hfn⟩ | ⟨t', ts2', hr, hf, hf2, hr2⟩
  · have hout : parseD20Formula r = (r, ⟨rollFormula r.terms, none, none⟩) := by
      simp only [parseD20Formula, hrn]
    rw [hout, hout]
    exact ⟨rfl, rfl, rfl, Or.inl rfl⟩
  · have hd20 : isD20 t' = true := findD20_isD20 hf
    have hout1 : parseD20Formula r =
        (⟨ts2', r.total, r.ignored⟩,
          ⟨rollFormula ts2', some t'.numberOf,
            if t'.modsOf.contains DMod.kh then some "highest"
            else if t'.modsOf.contains DMod.kl then some "lowest"
            else none⟩) := by
      simp only [parseD20Formula, hr]
    have hout2 : parseD20Formula ⟨ts2', r.total, r.ignored⟩ =
        (⟨ts2', r.total, r.ignored⟩,
          ⟨rollFormula ts2', some (normD20Term t').numberOf,
            if (normD20Term t').modsOf.contains DMod.kh then some "highest"
            else if (normD20Term t').modsOf.contains DMod.kl then some "lowest"
            else none⟩) := by
      simp only [parseD20Formula]
      rw [hr2]
    rw [hout1, hout2]
    have hnokeep : ∀ m : DMod, m = DMod.kh ∨ m = DMod.kl →
        (normD20Term t').modsOf.contains m = false := by
      intro m hm
      cases t' with
      | dice n f mo res fl =>
        rcases hm with rfl | rfl <;>
          simp [normD20Term, Term.modsOf, List.mem_filter]
      | num n fl => simp [isD20] at hd20
      | op b => simp [isD20] at hd20
      | pool rs => simp [isD20] at hd20
      | roll ts0 => simp [isD20] at hd20
    refine ⟨rfl, rfl, ?_, Or.inr ?_⟩
    · rw [if_neg, if_neg]
      · rw [hnokeep DMod.kl (Or.inr rfl)]
        simp
      · rw [hnokeep DMod.kh (Or.inl rfl)]
        simp
    · cases t' with
      | dice n f m res fl => simp [normD20Term, Term.numberOf]
      | num n fl => simp [isD20] at hd20
      | op b => simp [isD20] at hd20
      | pool rs => simp [isD20] at hd20
      | roll ts0 => simp [isD20] at hd20

theorem digitChar_isDigit {d : Nat} (h : d < 10) :
    (Nat.digitChar d).isDigit = true := by
  interval_cases d <;> decide

theorem digitVal_digitChar {d : Nat} (h : d < 10) :
    digitVal (Nat.digitChar d) = d := by
  interval_cases d <;> decide

theorem natCharsF_zero (fuel : Nat) : natCharsF fuel 0 = [] := by
  cases fuel <;> rfl

theorem natCharsF_digits (fuel n : Nat) :
    ∀ c ∈ natCharsF fuel n, c.isDigit = true := by
  induction fuel generalizing n with
  | zero => simp [natCharsF]
  | succ f ih =>
    intro c hc
    cases n with
    | zero => simp [natCharsF] at hc
    | succ m =>
      simp only [natCharsF] at hc
      rcases List.mem_append.mp hc with h1 | h2
      · exact ih _ c h1
      · simp at h2
        rw [h2]
        exact digitChar_isDigit (Nat.mod_lt _ (by omega))

theorem natChars_digits (n : Nat) : ∀ c ∈ natChars n, c.isDigit = true := by
  unfold natChars
  split
  · simp
  · exact natCharsF_digits n n

theorem natChars_ne_nil (n : Nat) : natChars n ≠ [] := by
  unfold natChars
  split
  · simp
  · rename_i h
    cases n with
    | zero => exact absurd rfl h
    | succ m =>
      simp [natCharsF]

theorem decodeNat_append_one (xs : List Char) (c : Char) :
    decodeNat (xs ++ [c]) = 10 * decodeNat xs + digitVal c := by
  simp [decodeNat, List.foldl_append]

theorem decodeNat_natCharsF (fuel n : Nat) (h : n ≤ fuel) :
    decodeNat (natCharsF fuel n) = n := by
  induction fuel generalizing n with
  | zero =>
    interval_cases n
    simp [natCharsF, decodeNat]
  | succ f ih =>
    cases n with
    | zero => simp [natCharsF_zero, decodeNat]
    | succ m =>
      simp only [natCharsF]
      rw [decodeNat_append_one, ih _ (by omega),
        digitVal_digitChar (Nat.mod_lt _ (by omega))]
      omega

theorem decodeNat_natChars (n : Nat) : decodeNat (natChars n) = n := by
  unfold natChars
  split
  · rename_i h
    rw [h]
    decide
  · exact decodeNat_natCharsF n n (le_refl n)

/-- The first character of a list fails the predicate (or the list is
empty). -/
def headNot (p : Char → Bool) (cs : List Char) : Prop :=
  ∀ c, cs.head? = some c → p c = false

theorem headNot_nil (p : Char → Bool) : headNot p [] := by
  intro c h
  simp at h

theorem headNot_cons {p : Char → Bool} {c : Char} (cs : List Char)
    (h : p c = false) : headNot p (c :: cs) := by
  intro c2 h2
  simp at h2
  rw [← h2]
  exact h

theorem takeWhile_all_append {p : Char → Bool} {xs ys : List Char}
    (hx : ∀ c ∈ xs, p c = true) (hy : headNot p ys) :
    (xs ++ ys).takeWhile p = xs := by
  induction xs with
  | nil =>
    cases ys with
    | nil => rfl
    | cons y ys2 =>
      have := hy y rfl
      simp [List.takeWhile, this]
  | cons x xs2 ih =>
    have hpx : p x = true := hx x (by simp)
    simp [List.takeWhile, hpx]
    exact ih (fun c hc => hx c (by simp [hc]))

theorem dropWhile_all_append {p : Char → Bool} {xs ys : List Char}
    (hx : ∀ c ∈ xs, p c = true) (hy : headNot p ys) :
    (xs ++ ys).dropWhile p = ys := by
  induction xs with
  | nil =>
    cases ys with
    | nil => rfl
    | cons y ys2 =>
      have := hy y rfl
      simp [List.dropWhile, this]
  | cons x xs2 ih =>
    have hpx : p x = true := hx x (by simp)
    simp [List.dropWhile, hpx]
    exact ih (fun c hc => hx c (by simp [hc]))

theorem parseMods_other {c : Char} {cs : List Char} (hk : (c = 'k') = false)
    (hr : (c = 'r') = false) : parseMods (c :: cs) = ([], c :: cs) := by
  unfold parseMods
  split <;> simp_all

theorem parseFlavor_other {c : Char} {cs : List Char} (hb : (c = '[') = false) :
    parseFlavor (c :: cs) = some (none, c :: cs) := by
  unfold parseFlavor
  split <;> simp_all

theorem parseMods_append (ms : List DMod) (rest : List Char)
    (h : headNot (fun c => c = 'k' || c = 'r') rest) :
    parseMods ((ms.map modChars).flatten ++ rest) = (ms, rest) := by
  induction ms with
  | nil =>
    simp only [List.map_nil, List.flatten_nil, List.nil_append]
    cases rest with
    | nil => rfl
    | cons c cs =>
      have hh := h c rfl
      simp at hh
      exact parseMods_other (by simp [hh.1]) (by simp [hh.2])
  | cons m ms2 ih =>
    cases m with
    | kh =>
      simp only [List.map_cons, List.flatten_cons, modChars, List.cons_append,
        List.append_assoc]
      rw [parseMods]
      simp [ih]
    | kl =>
      simp only [List.map_cons, List.flatten_cons, modChars, List.cons_append,
        List.append_assoc]
      rw [parseMods]
      simp [ih]
    | r =>
      simp only [List.map_cons, List.flatten_cons, modChars, List.cons_append,
        List.append_assoc]
      rw [parseMods]
      simp [ih]

theorem flavorOK_chars {s : String} (h : flavorOKb (some s) = true) :
    ∀ c ∈ s.toList, (!(c = ']')) = true := by
  intro c hc
  simp [flavorOKb] at h
  simp
  intro hcc
  rw [hcc] at hc
  exact absurd hc h

theorem parseFlavor_append (fl : Option String) (rest : List Char)
    (hok : flavorOKb fl = true) (hbr : headNot (fun c => c = '[') rest) :
    parseFlavor (flavorChars fl ++ rest) = some (fl, rest) := by
  cases fl with
  | none =>
    simp only [flavorChars, List.nil_append]
    cases rest with
    | nil => rfl
    | cons c cs =>
      have hh := hbr c rfl
      exact parseFlavor_other (by simpa using hh)
  | some s =>
    simp only [flavorChars, List.cons_append, List.append_assoc, List.nil_append]
    rw [parseFlavor]
    have hdrop : ((s.toList ++ ']' :: rest).dropWhile fun c => !(c = ']')) =
        ']' :: rest :=
      dropWhile_all_append (flavorOK_chars hok) (headNot_cons rest (by simp))
    have htake : ((s.toList ++ ']' :: rest).takeWhile fun c => !(c = ']')) =
        s.toList :=
      takeWhile_all_append (flavorOK_chars hok) (headNot_cons rest (by simp))
    rw [hdrop]
    simp only [String.toList] at htake
    simp [htake]

/-- The continuation after a serialised token: empty, or a space or
sign character (the only characters the serialiser and the crit regex
leave between tokens). -/
def headSafe (cs : List Char) : Prop :=
  ∀ c, cs.head? = some c → (c = ' ' ∨ c = '+' ∨ c = '-')

theorem headSafe_nil : headSafe [] := by
  intro c h
  simp at h

theorem headSafe_cons {c : Char} (cs : List Char)
    (h : c = ' ' ∨ c = '+' ∨ c = '-') : headSafe (c :: cs) := by
  intro c2 h2
  simp at h2
  rw [← h2]
  exact h

theorem headSafe_headNot {cs : List Char} (p : Char → Bool)
    (hp : p ' ' = false ∧ p '+' = false ∧ p '-' = false) (h : headSafe cs) :
    headNot p cs := by
  intro c hc
  rcases h c hc with rfl | rfl | rfl
  · exact hp.1
  · exact hp.2.1
  · exact hp.2.2

theorem headSafe_ne_d {cs : List Char} (h : headSafe cs) :
    ¬cs.head? = some 'd' := by
  intro hc
  rcases h 'd' hc with hh | hh | hh <;> simp at hh

theorem modsFlavor_headNot_digit (ms : List DMod) (fl : Option String)
    (rest : List Char) (hs : headSafe rest) :
    headNot Char.isDigit ((ms.map modChars).flatten ++ (flavorChars fl ++ rest)) := by
  cases ms with
  | cons m ms2 =>
    cases m <;>
      (simp only [List.map_cons, List.flatten_cons, modChars, List.cons_append,
        List.append_assoc]
       exact headNot_cons _ (by decide))
  | nil =>
    cases fl with
    | some s =>
      simp only [List.map_nil, List.flatten_nil, List.nil_append, flavorChars,
        List.cons_append]
      exact headNot_cons _ (by decide)
    | none =>
      simp only [List.map_nil, List.flatten_nil, List.nil_append, flavorChars]
      exact headSafe_headNot _ (by refine ⟨by decide, by decide, by decide⟩) hs

theorem flavorRest_headNot_kr (fl : Option String) (rest : List Char)
    (hs : headSafe rest) :
    headNot (fun c => c = 'k' || c = 'r') (flavorChars fl ++ rest) := by
  cases fl with
  | some s =>
    simp only [flavorChars, List.cons_append]
    exact headNot_cons _ (by decide)
  | none =>
    simp only [flavorChars, List.nil_append]
    exact headSafe_headNot _ (by refine ⟨by decide, by decide, by decide⟩) hs

theorem headSafe_headNot_br {cs : List Char} (h : headSafe cs) :
    headNot (fun c => c = '[') cs :=
  headSafe_headNot _ (by refine ⟨by decide, by decide, by decide⟩) h

theorem flavorRest_head_ne_d (fl : Option String) (rest : List Char)
    (hs : headSafe rest) : ¬(flavorChars fl ++ rest).head? = some 'd' := by
  cases fl with
  | some s => simp [flavorChars]
  | none =>
    simp only [flavorChars, List.nil_append]
    exact headSafe_ne_d hs

theorem modsFlavor_head_ne_d (ms : List DMod) (fl : Option String)
    (rest : List Char) (hs : headSafe rest) :
    ¬((ms.map modChars).flatten ++ (flavorChars fl ++ rest)).head? = some 'd' := by
  cases ms with
  | cons m ms2 => cases m <;> simp [modChars]
  | nil =>
    simp only [List.map_nil, List.flatten_nil, List.nil_append]
    exact flavorRest_head_ne_d fl rest hs

theorem parseTermC_rt (t : Term) (rest : List Char) (hwf : wfOperand t = true)
    (hs : headSafe rest) : parseTermC (termChars t ++ rest) = some (t, rest) := by
  cases t with
  | num n fl =>
    have hok : flavorOKb fl = true := by simpa [wfOperand] using hwf
    have hassoc : termChars (Term.num n fl) ++ rest =
        natChars n ++ (flavorChars fl ++ rest) := by
      simp [termChars, List.append_assoc]
    have hflnd : headNot Char.isDigit (flavorChars fl ++ rest) := by
      cases fl with
      | some s =>
        simp only [flavorChars, List.cons_append]
        exact headNot_cons _ (by decide)
      | none =>
        simp only [flavorChars, List.nil_append]
        exact headSafe_headNot _ (by refine ⟨by decide, by decide, by decide⟩) hs
    have htake := takeWhile_all_append (natChars_digits n) hflnd
    have hdrop := dropWhile_all_append (natChars_digits n) hflnd
    rw [hassoc]
    unfold parseTermC
    rw [htake, hdrop, if_neg (by simp [List.isEmpty_eq_false.mpr (natChars_ne_nil n)]),
      if_neg (flavorRest_head_ne_d fl rest hs),
      parseFlavor_append fl rest hok (headSafe_headNot_br hs), decodeNat_natChars]
  | dice n f ms res fl =>
    have hres : res = [] := by
      simp [wfOperand] at hwf
      exact hwf.1
    have hok : flavorOKb fl = true := by
      simp [wfOperand] at hwf
      exact hwf.2
    subst hres
    have hassoc : termChars (Term.dice n f ms [] fl) ++ rest =
        natChars n ++ ('d' :: (natChars f ++
          ((ms.map modChars).flatten ++ (flavorChars fl ++ rest)))) := by
      simp [termChars, List.append_assoc]
    have htake1 := takeWhile_all_append (natChars_digits n)
      (@headNot_cons Char.isDigit 'd'
        (natChars f ++ ((ms.map modChars).flatten ++ (flavorChars fl ++ rest)))
        (by decide))
    have hdrop1 := dropWhile_all_append (natChars_digits n)
      (@headNot_cons Char.isDigit 'd'
        (natChars f ++ ((ms.map modChars).flatten ++ (flavorChars fl ++ rest)))
        (by decide))
    have htake2 := takeWhile_all_append (natChars_digits f)
      (modsFlavor_headNot_digit ms fl rest hs)
    have hdrop2 := dropWhile_all_append (natChars_digits f)
      (modsFlavor_headNot_digit ms fl rest hs)
    rw [hassoc]
    unfold parseTermC
    rw [htake1, hdrop1, if_neg (by simp [List.isEmpty_eq_false.mpr (natChars_ne_nil n)])]
    simp only [List.head?_cons, List.tail_cons, if_true]
    rw [htake2, hdrop2, if_neg (by simp [List.isEmpty_eq_false.mpr (natChars_ne_nil f)]),
      parseMods_append ms _ (flavorRest_headNot_kr fl rest hs),
      parseFlavor_append fl rest hok (headSafe_headNot_br hs),
      decodeNat_natChars, decodeNat_natChars]
  | op b => simp [wfOperand] at hwf
  | pool rs => simp [wfOperand] at hwf
  | roll ts => simp [wfOperand] at hwf

theorem dropWhile_headNot {p : Char → Bool} {l : List Char} (h : headNot p l) :
    l.dropWhile p = l := by
  cases l with
  | nil => rfl
  | cons c cs => simp [List.dropWhile, h c rfl]

theorem termChars_head_not_space {t : Term} (hwf : wfOperand t = true)
    (Z : List Char) : headNot (fun c => c = ' ') (termChars t ++ Z) := by
  cases t with
  | num n fl =>
    have h1 := natChars_ne_nil n
    cases hn : natChars n with
    | nil => exact absurd hn h1
    | cons c cs =>
      have hd : c.isDigit = true := natChars_digits n c (by simp [hn])
      simp only [termChars, hn, List.cons_append, List.append_assoc]
      refine headNot_cons _ ?_
      simp
      intro hcc
      rw [hcc] at hd
      simp at hd
  | dice n f ms res fl =>
    have h1 := natChars_ne_nil n
    cases hn : natChars n with
    | nil => exact absurd hn h1
    | cons c cs =>
      have hd : c.isDigit = true := natChars_digits n c (by simp [hn])
      simp only [termChars, hn, List.cons_append, List.append_assoc]
      refine headNot_cons _ ?_
      simp
      intro hcc
      rw [hcc] at hd
      simp at hd
  | op b => simp [wfOperand] at hwf
  | pool rs => simp [wfOperand] at hwf
  | roll ts => simp [wfOperand] at hwf

/-- The chunk of serialised characters contributed by the operator and
operand pairs after the first term of a roll. -/
def pairsChars : List Term → List Char
  | Term.op b :: t :: ps =>
    ' ' :: (if b then '+' else '-') :: ' ' :: (termChars t ++ pairsChars ps)
  | _ => []

theorem rollChars_wf {ps : List Term} (hwf : WFPairs ps) :
    ∀ t0 : Term, rollChars (t0 :: ps) = termChars t0 ++ pairsChars ps := by
  induction hwf with
  | nil =>
    intro t0
    simp [rollChars, pairsChars]
  | cons b t ps2 hop hps ih =>
    intro t0
    have h1 : rollChars (t0 :: Term.op b :: t :: ps2) =
        termChars t0 ++ ' ' :: rollChars (Term.op b :: t :: ps2) := by
      simp [rollChars]
    have h2 : rollChars (Term.op b :: t :: ps2) =
        termChars (Term.op b) ++ ' ' :: rollChars (t :: ps2) := by
      simp [rollChars]
    rw [h1, h2, ih t]
    cases b <;> simp [termChars, pairsChars]

theorem pairs_headSafe (ps : List Term) (extra : List Char)
    (hx : headSafe extra) : headSafe (pairsChars ps ++ extra) := by
  cases ps with
  | nil => exact hx
  | cons p ps2 =>
    cases p with
    | op b =>
      cases ps2 with
      | nil => exact hx
      | cons t ps3 =>
        simp only [pairsChars, List.cons_append]
        exact headSafe_cons _ (Or.inl rfl)
    | dice n f m res fl => exact hx
    | num n fl => exact hx
    | pool rs => exact hx
    | roll ts => exact hx

theorem loopF_fuel_aux (n : Nat) : ∀ (cs : List Char) (f1 f2 : Nat) (acc : List Term),
    cs.length ≤ n → cs.length < f1 → cs.length < f2 →
    parseTermsLoopF f1 acc cs = parseTermsLoopF f2 acc cs := by
  induction n with
  | zero =>
    intro cs f1 f2 acc h0 h1 h2
    have hcs : cs = [] := List.length_eq_zero.mp (by omega)
    subst hcs
    cases f1 with
    | zero => omega
    | succ a =>
      cases f2 with
      | zero => omega
      | succ b => rfl
  | succ m ih =>
    intro cs f1 f2 acc hle h1 h2
    cases f1 with
    | zero => omega
    | succ a =>
      cases f2 with
      | zero => omega
      | succ b =>
        rw [parseTermsLoopF, parseTermsLoopF]
        cases hdw : cs.dropWhile (fun c => c = ' ') with
        | nil => rfl
        | cons c r =>
          dsimp only
          have hlen1 : (c :: r).length ≤ cs.length := by
            have := dw_le (fun c => c = ' ') cs
            rw [hdw] at this
            exact this
          by_cases hc : (c = '+' || c = '-') = true
          · rw [if_pos hc, if_pos hc]
            cases hp : parseTermC (r.dropWhile (fun c2 => c2 = ' ')) with
            | none => rfl
            | some pr =>
              obtain ⟨t, r2⟩ := pr
              have hp2 := parseTermC_lt hp
              have hp3 := dw_le (fun c2 => c2 = ' ') r
              simp only [List.length_cons] at hlen1
              exact ih r2 a b (t :: Term.op (c = '+') :: acc)
                (by omega) (by omega) (by omega)
          · rw [if_neg hc, if_neg hc]

theorem loopF_eq_loop {cs : List Char} {fuel : Nat} (acc : List Term)
    (h : cs.length < fuel) :
    parseTermsLoopF fuel acc cs = parseTermsLoop acc cs :=
  loopF_fuel_aux cs.length cs fuel (cs.length + 1) acc (le_refl _) h (by omega)

theorem loop_pairs {ps : List Term} (hwf : WFPairs ps) :
    ∀ (acc : List Term) (extra : List Char), headSafe extra →
    parseTermsLoop acc (pairsChars ps ++ extra) =
      parseTermsLoop (List.reverseAux ps acc) extra := by
  induction hwf with
  | nil =>
    intro acc extra h
    rfl
  | cons b t ps2 hop hps ih =>
    intro acc extra hx
    have hchunk : pairsChars (Term.op b :: t :: ps2) ++ extra =
        ' ' :: (if b then '+' else '-') :: ' ' ::
          (termChars t ++ (pairsChars ps2 ++ extra)) := by
      simp [pairsChars, List.append_assoc]
    rw [parseTermsLoop, hchunk]
    have hfl : ((' ' :: (if b then '+' else '-') :: ' ' ::
        (termChars t ++ (pairsChars ps2 ++ extra))).length) + 1 =
        ((termChars t ++ (pairsChars ps2 ++ extra)).length + 3) + 1 := by
      simp
    rw [hfl, parseTermsLoopF]
    have hop2 : ((if b then '+' else '-') = ' ') = false := by cases b <;> decide
    have hdw1 : ((' ' :: (if b then '+' else '-') :: ' ' ::
        (termChars t ++ (pairsChars ps2 ++ extra))).dropWhile (fun c => c = ' ')) =
        (if b then '+' else '-') :: ' ' :: (termChars t ++ (pairsChars ps2 ++ extra)) := by
      simp [List.dropWhile, hop2]
    rw [hdw1]
    dsimp only
    have hcond : (decide ((if b = true then '+' else '-') = '+') ||
        decide ((if b = true then '+' else '-') = '-')) = true := by
      cases b <;> decide
    rw [if_pos hcond]
    have hdw2 : ((' ' :: (termChars t ++ (pairsChars ps2 ++ extra))).dropWhile
        (fun c2 => c2 = ' ')) = termChars t ++ (pairsChars ps2 ++ extra) := by
      rw [List.dropWhile_cons_of_pos (by decide)]
      exact dropWhile_headNot (termChars_head_not_space hop _)
    rw [hdw2, parseTermC_rt t (pairsChars ps2 ++ extra) hop (pairs_headSafe ps2 extra hx)]
    dsimp only
    have hb : Term.op (decide ((if b = true then '+' else '-') = '+')) = Term.op b := by
      cases b <;> simp
    rw [hb]
    rw [loopF_eq_loop (t :: Term.op b :: acc) (by simp only [List.length_append]; omega)]
    rw [ih (t :: Term.op b :: acc) extra hx]
    rfl

theorem parseTermsC_rt (t0 : Term) (ps : List Term) (extra : List Char)
    (h0 : wfOperand t0 = true) (hps : WFPairs ps) (hx : headSafe extra) :
    parseTermsC (rollChars (t0 :: ps) ++ extra) =
      parseTermsLoop (List.reverseAux ps [t0]) extra := by
  rw [rollChars_wf hps t0, List.append_assoc, parseTermsC]
  rw [dropWhile_headNot (termChars_head_not_space h0 _)]
  rw [parseTermC_rt t0 (pairsChars ps ++ extra) h0 (pairs_headSafe ps extra hx)]
  exact loop_pairs hps [t0] extra hx

theorem loop_nil (acc : List Term) : parseTermsLoop acc [] = some acc.reverse := rfl

theorem loop_plus_num (acc : List Term) (d : Nat) :
    parseTermsLoop acc ('+' :: natChars d) =
      some (acc.reverse ++ [Term.op true, Term.num d none]) := by
  rw [parseTermsLoop]
  simp only [List.length_cons]
  rw [parseTermsLoopF]
  have hdw1 : (('+' :: natChars d).dropWhile (fun c => c = ' ')) = '+' :: natChars d := by
    simp [List.dropWhile]
  rw [hdw1]
  dsimp only
  rw [if_pos (by decide)]
  have hdw2 : ((natChars d).dropWhile (fun c2 => c2 = ' ')) = natChars d := by
    refine dropWhile_headNot ?_
    intro c hc
    have hd : c.isDigit = true := by
      apply natChars_digits d
      cases hnc : natChars d with
      | nil => rw [hnc] at hc; simp at hc
      | cons a l =>
        rw [hnc] at hc
        simp at hc
        simp [hnc, hc]
    simp
    intro hcc
    rw [hcc] at hd
    simp at hd
  rw [hdw2]
  have hterm : natChars d = termChars (Term.num d none) ++ [] := by
    simp [termChars, flavorChars]
  rw [hterm, parseTermC_rt (Term.num d none) [] (by simp [wfOperand, flavorOKb]) headSafe_nil]
  dsimp only
  rw [loopF_eq_loop (Term.num d none :: Term.op (decide ('+' = '+')) :: acc) (by simp)]
  simp [parseTermsLoop, parseTermsLoopF]
theorem parseFlavor_wf {cs r : List Char} {fl : Option String}
    (h : parseFlavor cs = some (fl, r)) : flavorOKb fl = true := by
  unfold parseFlavor at h
  split at h
  · rename_i rest
    split at h
    · rename_i r2 hdrop
      simp at h
      obtain ⟨h1, h2⟩ := h
      subst h1
      simp only [flavorOKb, String.toList]
      simp only [Bool.not_eq_true']
      cases hc : (List.takeWhile (fun c => !decide (c = ']')) rest).contains ']'
      · rfl
      · exfalso
        have hm : ']' ∈ List.takeWhile (fun c => !decide (c = ']')) rest :=
          List.elem_iff.mp hc
        have := List.mem_takeWhile_imp hm
        simp at this
    · exact absurd h (by simp)
  · simp at h
    obtain ⟨h1, h2⟩ := h
    subst h1
    rfl

theorem parseTermC_wf {cs r : List Char} {t : Term}
    (h : parseTermC cs = some (t, r)) : wfOperand t = true := by
  unfold parseTermC at h
  split at h
  · exact absurd h (by simp)
  · split at h
    · split at h
      · exact absurd h (by simp)
      · split at h
        · rename_i fl r4 hfl
          simp at h
          obtain ⟨h1, h2⟩ := h
          subst h1
          simp [wfOperand, parseFlavor_wf hfl]
        · exact absurd h (by simp)
    · split at h
      · rename_i fl r4 hfl
        simp at h
        obtain ⟨h1, h2⟩ := h
        subst h1
        simp [wfOperand, parseFlavor_wf hfl]
      · exact absurd h (by simp)

theorem loopF_wf (fuel : Nat) : ∀ (acc : List Term) (cs : List Char) (out : List Term),
    parseTermsLoopF fuel acc cs = some out →
    ∃ ps, WFPairs ps ∧ out = acc.reverse ++ ps := by
  induction fuel with
  | zero =>
    intro acc cs out h
    exact absurd h (by simp [parseTermsLoopF])
  | succ f ih =>
    intro acc cs out h
    rw [parseTermsLoopF] at h
    cases hdw : cs.dropWhile (fun c => c = ' ') with
    | nil =>
      rw [hdw] at h
      simp at h
      exact ⟨[], WFPairs.nil, by simp [h]⟩
    | cons c r =>
      rw [hdw] at h
      dsimp only at h
      by_cases hc : (decide (c = '+') || decide (c = '-')) = true
      · rw [if_pos hc] at h
        cases hp : parseTermC (r.dropWhile (fun c2 => c2 = ' ')) with
        | none => rw [hp] at h; exact absurd h (by simp)
        | some pr =>
          obtain ⟨t, r2⟩ := pr
          rw [hp] at h
          dsimp only at h
          obtain ⟨ps, hps, hout⟩ := ih (t :: Term.op (decide (c = '+')) :: acc) r2 out h
          refine ⟨Term.op (decide (c = '+')) :: t :: ps,
            WFPairs.cons _ _ _ (parseTermC_wf hp) hps, ?_⟩
          rw [hout]
          simp
      · rw [if_neg hc] at h
        exact absurd h (by simp)

theorem parseTermsC_wf {cs : List Char} {ts : List Term}
    (h : parseTermsC cs = some ts) : WFRoll ts := by
  unfold parseTermsC at h
  cases hp : parseTermC (cs.dropWhile (fun c => c = ' ')) with
  | none => rw [hp] at h; exact absurd h (by simp)
  | some pr =>
    obtain ⟨t, r⟩ := pr
    rw [hp] at h
    dsimp only at h
    obtain ⟨ps, hps, hout⟩ := loopF_wf _ _ _ _ h
    rw [hout]
    simp only [List.reverse_cons, List.reverse_nil, List.nil_append, List.singleton_append]
    exact ⟨parseTermC_wf hp, hps⟩
theorem alter_wfpairs (e : Nat) {ps : List Term} (h : WFPairs ps) :
    WFPairs (alterTerms e ps) := by
  induction h with
  | nil => exact WFPairs.nil
  | cons b t ps2 hop hps ih =>
    cases t with
    | dice n f m res fl =>
      simp only [alterTerms, List.map_cons] at ih ⊢
      exact WFPairs.cons _ _ _ (by simpa [wfOperand] using hop) ih
    | num d fl =>
      simp only [alterTerms, List.map_cons] at ih ⊢
      exact WFPairs.cons _ _ _ hop ih
    | op b2 => simp [wfOperand] at hop
    | pool rs => simp [wfOperand] at hop
    | roll ts => simp [wfOperand] at hop

theorem fillTerms_cons (m : Bool) (o : List Nat) (t : Term) (rest : List Term) :
    ∃ ft o2, fillTerms m o (t :: rest) =
      (ft :: (fillTerms m o2 rest).1, (fillTerms m o2 rest).2) ∧
      termChars ft = termChars t ∧ isNumTerm ft = isNumTerm t := by
  cases t with
  | dice n f mods res fl =>
    refine ⟨Term.dice n f mods
      ((if m then List.replicate n f
        else (List.range n).map (fun i => clampDie f (o.getD i 1))).map
        (fun v => ⟨v, false, false⟩)) fl,
      if m then o else o.drop n, rfl, rfl, rfl⟩
  | num d fl => exact ⟨_, o, by simp [fillTerms], rfl, rfl⟩
  | op b => exact ⟨_, o, by simp [fillTerms], rfl, rfl⟩
  | pool rs => exact ⟨_, o, by simp [fillTerms], rfl, rfl⟩
  | roll ts => exact ⟨_, o, by simp [fillTerms], rfl, rfl⟩

theorem fill_rollChars (m : Bool) (ts : List Term) :
    ∀ o, rollChars (fillTerms m o ts).1 = rollChars ts := by
  induction ts with
  | nil => intro o; rfl
  | cons t rest ih =>
    intro o
    obtain ⟨ft, o2, hfill, hchars, _⟩ := fillTerms_cons m o t rest
    rw [hfill]
    cases rest with
    | nil => simpa [fillTerms, rollChars] using hchars
    | cons r2 rest2 =>
      have h2 := ih o2
      obtain ⟨ft2, o3, hfill2, _, _⟩ := fillTerms_cons m o2 r2 rest2
      rw [hfill2] at h2 ⊢
      simp only [rollChars] at h2 ⊢
      rw [hchars, h2]

theorem fill_no_num (m : Bool) (ts : List Term)
    (h : ∀ t ∈ ts, isNumTerm t = false) :
    ∀ o, ∀ t ∈ (fillTerms m o ts).1, isNumTerm t = false := by
  induction ts with
  | nil => intro o t ht; simp [fillTerms] at ht
  | cons t0 rest ih =>
    intro o t ht
    obtain ⟨ft, o2, hfill, _, hnum⟩ := fillTerms_cons m o t0 rest
    rw [hfill] at ht
    rcases List.mem_cons.mp ht with rfl | ht2
    · rw [hnum]
      exact h t0 (by simp)
    · exact ih (fun x hx => h x (by simp [hx])) o2 t ht2

theorem fillTrue_append (xs : List Term) :
    ∀ (o : List Nat) (ys : List Term),
    (fillTerms true o (xs ++ ys)).1 = (fillTerms true o xs).1 ++ (fillTerms true o ys).1 := by
  induction xs with
  | nil => intro o ys; simp [fillTerms]
  | cons t rest ih =>
    intro o ys
    cases t <;> simp [fillTerms, ih]

theorem totalAux_append_num (d : Nat) (zs : List Term) :
    ∀ (s : Bool) (acc : Int),
    totalAux (zs ++ [Term.op true, Term.num d none]) s acc = totalAux zs s acc + d := by
  induction zs with
  | nil => intro s acc; simp [totalAux, termValue]
  | cons t rest ih =>
    intro s acc
    cases t with
    | op b =>
      simp only [List.cons_append, totalAux]
      exact ih b acc
    | dice n f m res fl =>
      simp only [List.cons_append, totalAux]
      exact ih s _
    | num n fl =>
      simp only [List.cons_append, totalAux]
      exact ih s _
    | pool rs =>
      simp only [List.cons_append, totalAux]
      exact ih s _
    | roll ts2 =>
      simp only [List.cons_append, totalAux]
      exact ih s _

theorem intChars_nonneg {i : Int} (h : 0 ≤ i) : intChars i = natChars i.toNat := by
  simp [intChars, not_lt.mpr h]
theorem regexStripF_fuel (n : Nat) : ∀ (cs : List Char) (f1 f2 : Nat),
    cs.length ≤ n → cs.length < f1 → cs.length < f2 →
    regexStripF f1 cs = regexStripF f2 cs := by
  induction n with
  | zero =>
    intro cs f1 f2 h0 h1 h2
    have hnil : cs = [] := List.length_eq_zero.mp (by omega)
    subst hnil
    cases f1 with
    | zero => omega
    | succ a =>
      cases f2 with
      | zero => omega
      | succ b => rfl
  | succ m ih =>
    intro cs f1 f2 h0 h1 h2
    cases cs with
    | nil =>
      cases f1 with
      | zero => omega
      | succ a =>
        cases f2 with
        | zero => omega
        | succ b => rfl
    | cons c r =>
      cases f1 with
      | zero => omega
      | succ a =>
        cases f2 with
        | zero => omega
        | succ b =>
          rw [regexStripF, regexStripF]
          simp only [List.length_cons] at h0 h1 h2
          cases hm : matchAt (c :: r) with
          | some rest =>
            have hlt := matchAt_lt hm
            simp only [List.length_cons] at hlt
            exact ih rest a b (by omega) (by omega) (by omega)
          | none =>
            dsimp only
            rw [ih r a b (by omega) (by omega) (by omega)]

theorem regexStripF_eq {cs : List Char} {fuel : Nat} (h : cs.length < fuel) :
    regexStripF fuel cs = regexStrip cs :=
  regexStripF_fuel cs.length cs fuel (cs.length + 1) (le_refl _) h (by omega)

theorem regexStrip_cons_match {c : Char} {cs rest : List Char}
    (h : matchAt (c :: cs) = some rest) :
    regexStrip (c :: cs) = regexStrip rest := by
  show regexStripF (cs.length + 1 + 1) (c :: cs) = regexStrip rest
  rw [regexStripF, h]
  have hlt := matchAt_lt h
  simp only [List.length_cons] at hlt
  exact regexStripF_eq (by omega)

theorem regexStrip_cons_nomatch {c : Char} {cs : List Char}
    (h : matchAt (c :: cs) = none) :
    regexStrip (c :: cs) = c :: regexStrip cs := by
  show regexStripF (cs.length + 1 + 1) (c :: cs) = c :: regexStrip cs
  rw [regexStripF, h]
  rfl

theorem matchAt_not_pm {c : Char} (cs : List Char) (h : isPM c = false) :
    matchAt (c :: cs) = none := by
  unfold matchAt
  rw [if_pos]
  rw [List.takeWhile_cons_of_neg (by simp [h])]
  rfl

theorem regexStrip_cons_nopm {c : Char} (cs : List Char) (h : isPM c = false) :
    regexStrip (c :: cs) = c :: regexStrip cs :=
  regexStrip_cons_nomatch (matchAt_not_pm cs h)

theorem regexStrip_append_nopm (xs ys : List Char)
    (h : ∀ c ∈ xs, isPM c = false) :
    regexStrip (xs ++ ys) = xs ++ regexStrip ys := by
  induction xs with
  | nil => simp
  | cons c r ih =>
    simp only [List.cons_append]
    rw [regexStrip_cons_nopm _ (h c (by simp))]
    rw [ih (fun c2 hc2 => h c2 (by simp [hc2]))]

theorem regexStrip_nopm (xs : List Char) (h : ∀ c ∈ xs, isPM c = false) :
    regexStrip xs = xs := by
  have h2 := regexStrip_append_nopm xs [] h
  simpa [show regexStrip ([] : List Char) = [] from rfl] using h2

theorem digit_not_ws {c : Char} (h : c.isDigit = true) : c.isWhitespace = false := by
  cases hw : c.isWhitespace
  · rfl
  · exfalso
    simp [Char.isWhitespace] at hw
    have hw2 : c = ' ' ∨ c = '\t' ∨ c = '\x0d' ∨ c = '\n' := by tauto
    rcases hw2 with rfl | rfl | rfl | rfl <;> simp [Char.isDigit] at h

theorem digit_not_pm {c : Char} (h : c.isDigit = true) : isPM c = false := by
  cases hw : isPM c
  · rfl
  · exfalso
    simp [isPM] at hw
    rcases hw with rfl | rfl <;> simp [Char.isDigit] at h
theorem natChars_append_headNot (p : Char → Bool)
    (hp : ∀ c, c.isDigit = true → p c = false) (d : Nat) (ys : List Char) :
    headNot p (natChars d ++ ys) := by
  intro c hc
  cases hnc : natChars d with
  | nil => exact absurd hnc (natChars_ne_nil d)
  | cons a l =>
    rw [hnc] at hc
    simp at hc
    subst hc
    exact hp a (natChars_digits d a (by rw [hnc]; simp))

theorem natChars_small {n : Nat} (h : n < 10) : natChars n = [Nat.digitChar n] := by
  cases n with
  | zero => rfl
  | succ m =>
    show natCharsF (m + 1) (m + 1) = [Nat.digitChar (m + 1)]
    rw [show natCharsF (m + 1) (m + 1) =
      natCharsF m ((m + 1) / 10) ++ [Nat.digitChar ((m + 1) % 10)] from rfl]
    rw [Nat.div_eq_of_lt h, Nat.mod_eq_of_lt h, natCharsF_zero]
    rfl

theorem matchAt_op_num {o : Char} (ho : isPM o = true) (d : Nat) (ys : List Char)
    (hy : headNot Char.isDigit ys) (hyd : ¬ys.head? = some 'd')
    (hyD : ¬ys.head? = some 'D') :
    matchAt (o :: ' ' :: (natChars d ++ ys)) = some ys := by
  have h2 : (o :: ' ' :: (natChars d ++ ys)).dropWhile isPM =
      ' ' :: (natChars d ++ ys) := by
    rw [List.dropWhile_cons_of_pos ho, List.dropWhile_cons_of_neg (by decide)]
  have h3 : (' ' :: (natChars d ++ ys)).dropWhile Char.isWhitespace =
      natChars d ++ ys := by
    rw [List.dropWhile_cons_of_pos (by decide)]
    exact dropWhile_headNot (natChars_append_headNot _ (fun c hc => digit_not_ws hc) d ys)
  have htw : (natChars d ++ ys).takeWhile Char.isDigit = natChars d :=
    takeWhile_all_append (natChars_digits d) hy
  have hdw : (natChars d ++ ys).dropWhile Char.isDigit = ys :=
    dropWhile_all_append (natChars_digits d) hy
  have hat : ¬(natChars d ++ ys).head? = some '@' := by
    intro hx
    have := natChars_append_headNot (fun c => c = '@')
      (by intro c hc
          by_contra hx2
          simp at hx2
          subst hx2
          simp [Char.isDigit] at hc) d ys
    have h5 := this '@' hx
    simp at h5
  unfold matchAt
  rw [h2, h3, htw, hdw]
  rw [if_neg (by rw [List.takeWhile_cons_of_pos ho]; simp)]
  rw [if_neg (by simpa using hat)]
  rw [if_neg (by simp [natChars_ne_nil d])]
  cases hys : ys with
  | nil => rfl
  | cons c r3 =>
    dsimp only
    rw [hys] at hyd hyD
    simp at hyd hyD
    rw [if_neg (by simp [hyd, hyD])]

theorem matchAt_op_dice_none {o : Char} (ho : isPM o = true) {n : Nat}
    (hn : n < 10) (rest0 : List Char) :
    matchAt (o :: ' ' :: (natChars n ++ 'd' :: rest0)) = none := by
  have hy : headNot Char.isDigit ('d' :: rest0) := headNot_cons _ (by decide)
  have h2 : (o :: ' ' :: (natChars n ++ 'd' :: rest0)).dropWhile isPM =
      ' ' :: (natChars n ++ 'd' :: rest0) := by
    rw [List.dropWhile_cons_of_pos ho, List.dropWhile_cons_of_neg (by decide)]
  have h3 : (' ' :: (natChars n ++ 'd' :: rest0)).dropWhile Char.isWhitespace =
      natChars n ++ 'd' :: rest0 := by
    rw [List.dropWhile_cons_of_pos (by decide)]
    exact dropWhile_headNot (natChars_append_headNot _ (fun c hc => digit_not_ws hc) n _)
  have htw : (natChars n ++ 'd' :: rest0).takeWhile Char.isDigit = natChars n :=
    takeWhile_all_append (natChars_digits n) hy
  have hdw : (natChars n ++ 'd' :: rest0).dropWhile Char.isDigit = 'd' :: rest0 :=
    dropWhile_all_append (natChars_digits n) hy
  have hat : ¬(natChars n ++ 'd' :: rest0).head? = some '@' := by
    intro hx
    have := natChars_append_headNot (fun c => c = '@')
      (by intro c hc
          by_contra hx2
          simp at hx2
          subst hx2
          simp [Char.isDigit] at hc) n ('d' :: rest0)
    have h5 := this '@' hx
    simp at h5
  unfold matchAt
  rw [h2, h3, htw, hdw]
  rw [if_neg (by rw [List.takeWhile_cons_of_pos ho]; simp)]
  rw [if_neg (by simpa using hat)]
  rw [if_neg (by simp [natChars_ne_nil n])]
  dsimp only
  rw [if_pos (by decide)]
  rw [if_neg (by rw [natChars_small hn]; simp)]
/-- A term carrying no flavor annotation. -/
def noFlavorTerm : Term → Bool
  | Term.dice _ _ _ _ fl => fl.isNone
  | Term.num _ fl => fl.isNone
  | _ => true

/-- No term of the list carries a flavor annotation. -/
def noFlavor (ts : List Term) : Bool := ts.all noFlavorTerm

theorem stripFlavor_id {ts : List Term} (h : noFlavor ts = true) :
    stripFlavor ts = ts := by
  induction ts with
  | nil => rfl
  | cons t rest ih =>
    simp only [noFlavor, List.all_cons, Bool.and_eq_true] at h
    have ih2 := ih (by simp [noFlavor, h.2])
    simp only [stripFlavor, List.map_cons] at ih2 ⊢
    rw [ih2]
    cases t with
    | dice n f m res fl =>
      simp only [noFlavorTerm, Option.isNone_iff_eq_none] at h
      rw [h.1]
      rfl
    | num d fl =>
      simp only [noFlavorTerm, Option.isNone_iff_eq_none] at h
      rw [h.1]
      rfl
    | op b => rfl
    | pool rs => rfl
    | roll ts2 => rfl

theorem termChars_dice_nopm (n f : Nat) (m : List DMod) (res : List DieResult) :
    ∀ c ∈ termChars (Term.dice n f m res none), isPM c = false := by
  intro c hc
  simp only [termChars] at hc
  rcases List.mem_append.mp hc with h1 | h1
  · rcases List.mem_append.mp h1 with h2 | h2
    · rcases List.mem_append.mp h2 with h3 | h3
      · exact digit_not_pm (natChars_digits n c h3)
      · rcases List.mem_cons.mp h3 with rfl | h4
        · decide
        · exact digit_not_pm (natChars_digits f c h4)
    · rw [List.mem_flatten] at h2
      obtain ⟨l, hl, hcl⟩ := h2
      rw [List.mem_map] at hl
      obtain ⟨md, _, rfl⟩ := hl
      cases md <;> simp [modChars] at hcl <;>
        first
          | (subst hcl; decide)
          | (rcases hcl with rfl | rfl <;> decide)
  · simp [flavorChars] at h1
/-- The characters the crit regex leaves of the serialised operator and
operand pairs: dice chunks survive whole (the negative lookahead blocks
the match), flat-number chunks are deleted except for the space that
precedes their operator. -/
def stripPairsChars : List Term → List Char
  | Term.op b :: Term.dice n f m res fl :: ps =>
    ' ' :: (if b then '+' else '-') :: ' ' ::
      (termChars (Term.dice n f m res fl) ++ stripPairsChars ps)
  | Term.op _ :: Term.num _ _ :: ps => ' ' :: stripPairsChars ps
  | _ => []

theorem strips_headSafe (ps : List Term) : headSafe (stripPairsChars ps) := by
  cases ps with
  | nil => exact headSafe_nil
  | cons a l =>
    cases a with
    | op b =>
      cases l with
      | nil => exact headSafe_nil
      | cons t l2 =>
        cases t with
        | dice n f m res fl => exact headSafe_cons _ (Or.inl rfl)
        | num d fl => exact headSafe_cons _ (Or.inl rfl)
        | op b2 => exact headSafe_nil
        | pool rs => exact headSafe_nil
        | roll ts => exact headSafe_nil
    | dice n f m res fl => exact headSafe_nil
    | num d fl => exact headSafe_nil
    | pool rs => exact headSafe_nil
    | roll ts => exact headSafe_nil

theorem regexStrip_pairs {ps : List Term} (hwf : WFPairs ps) :
    noFlavor ps = true → smallDiceAfterOp ps = true →
    regexStrip (pairsChars ps) = stripPairsChars ps := by
  induction hwf with
  | nil => intro _ _; rfl
  | cons b t ps2 hop hps ih =>
    intro hnofl hsmall
    have hopm : isPM (if b then '+' else '-') = true := by cases b <;> decide
    have hps_safe : headSafe (pairsChars ps2) := by
      have h := pairs_headSafe ps2 [] headSafe_nil
      rwa [List.append_nil] at h
    cases t with
    | dice n f m res fl =>
      simp only [noFlavor, List.all_cons, Bool.and_eq_true, noFlavorTerm,
        Option.isNone_iff_eq_none] at hnofl
      obtain ⟨-, hfl, hrest⟩ := hnofl
      subst hfl
      simp only [smallDiceAfterOp, Bool.and_eq_true, decide_eq_true_eq] at hsmall
      obtain ⟨hn, hsmall2⟩ := hsmall
      have hshape : termChars (Term.dice n f m res none) ++ pairsChars ps2 =
          natChars n ++ 'd' ::
            (natChars f ++ ((m.map modChars).flatten ++ pairsChars ps2)) := by
        simp [termChars, flavorChars]
      show regexStrip (' ' :: (if b then '+' else '-') :: ' ' ::
        (termChars (Term.dice n f m res none) ++ pairsChars ps2)) = _
      rw [@regexStrip_cons_nopm ' ' _ (by decide)]
      have hnm : matchAt ((if b then '+' else '-') :: ' ' ::
          (termChars (Term.dice n f m res none) ++ pairsChars ps2)) = none := by
        rw [hshape]
        exact matchAt_op_dice_none hopm hn _
      rw [regexStrip_cons_nomatch hnm]
      rw [@regexStrip_cons_nopm ' ' _ (by decide)]
      rw [regexStrip_append_nopm _ _ (termChars_dice_nopm n f m res)]
      rw [ih (by simp [noFlavor, hrest]) hsmall2]
      rfl
    | num d fl =>
      simp only [noFlavor, List.all_cons, Bool.and_eq_true, noFlavorTerm,
        Option.isNone_iff_eq_none] at hnofl
      obtain ⟨-, hfl, hrest⟩ := hnofl
      subst hfl
      have hsmall2 : smallDiceAfterOp ps2 = true := hsmall
      have hshape : termChars (Term.num d none) ++ pairsChars ps2 =
          natChars d ++ pairsChars ps2 := by
        simp [termChars, flavorChars]
      show regexStrip (' ' :: (if b then '+' else '-') :: ' ' ::
        (termChars (Term.num d none) ++ pairsChars ps2)) = _
      rw [@regexStrip_cons_nopm ' ' _ (by decide)]
      have hm : matchAt ((if b then '+' else '-') :: ' ' ::
          (termChars (Term.num d none) ++ pairsChars ps2)) = some (pairsChars ps2) := by
        rw [hshape]
        refine matchAt_op_num hopm d _ ?_ ?_ ?_
        · exact headSafe_headNot _ ⟨by decide, by decide, by decide⟩ hps_safe
        · exact headSafe_ne_d hps_safe
        · intro hx
          rcases hps_safe 'D' hx with h | h | h <;> exact absurd h (by decide)
      rw [regexStrip_cons_match hm]
      rw [ih hrest hsmall2]
      rfl
    | op b2 => simp [wfOperand] at hop
    | pool rs => simp [wfOperand] at hop
    | roll ts => simp [wfOperand] at hop
theorem loop_space (acc : List Term) (cs : List Char) :
    parseTermsLoop acc (' ' :: cs) = parseTermsLoop acc cs := by
  rw [parseTermsLoop, parseTermsLoop]
  show parseTermsLoopF (cs.length + 1 + 1) acc (' ' :: cs) =
    parseTermsLoopF (cs.length + 1) acc cs
  rw [parseTermsLoopF, parseTermsLoopF]
  rw [List.dropWhile_cons_of_pos (by decide)]
  cases hdw : cs.dropWhile (fun c => c = ' ') with
  | nil => rfl
  | cons c r =>
    dsimp only
    by_cases hc : (decide (c = '+') || decide (c = '-')) = true
    · rw [if_pos hc, if_pos hc]
      cases hp : parseTermC (r.dropWhile (fun c2 => c2 = ' ')) with
      | none => rfl
      | some pr =>
        obtain ⟨t, r2⟩ := pr
        dsimp only
        have h1 := parseTermC_lt hp
        have h2 := dw_le (fun c2 => c2 = ' ') r
        have h3 : (c :: r).length ≤ cs.length := by
          have h4 := dw_le (fun c => c = ' ') cs
          rw [hdw] at h4
          exact h4
        simp only [List.length_cons] at h3
        have h5 := dw_le (fun c2 => c2 = ' ') r
        exact loopF_fuel_aux r2.length r2 (cs.length + 1) cs.length
          (t :: Term.op (decide (c = '+')) :: acc) (le_refl _) (by omega) (by omega)
    · rw [if_neg hc, if_neg hc]

theorem loop_strip {ps : List Term} (hwf : WFPairs ps) :
    ∀ acc, parseTermsLoop acc (stripPairsChars ps) =
      some (acc.reverse ++ dicePairs ps) := by
  induction hwf with
  | nil =>
    intro acc
    rw [show stripPairsChars [] = [] from rfl, loop_nil]
    simp [dicePairs]
  | cons b t ps2 hop hps ih =>
    intro acc
    cases t with
    | num d fl =>
      show parseTermsLoop acc (' ' :: stripPairsChars ps2) = _
      rw [loop_space, ih acc]
      rfl
    | dice n f m res fl =>
      show parseTermsLoop acc (' ' :: (if b then '+' else '-') :: ' ' ::
        (termChars (Term.dice n f m res fl) ++ stripPairsChars ps2)) = _
      rw [parseTermsLoop]
      have hfl2 : ((' ' :: (if b then '+' else '-') :: ' ' ::
          (termChars (Term.dice n f m res fl) ++ stripPairsChars ps2)).length) + 1 =
          ((termChars (Term.dice n f m res fl) ++ stripPairsChars ps2).length + 3) + 1 := by
        simp
      rw [hfl2, parseTermsLoopF]
      have hop2 : ((if b = true then '+' else '-') = ' ') = False := by
        cases b <;> simp
      have hdw1 : ((' ' :: (if b then '+' else '-') :: ' ' ::
          (termChars (Term.dice n f m res fl) ++ stripPairsChars ps2)).dropWhile
            (fun c => c = ' ')) =
          (if b then '+' else '-') :: ' ' ::
            (termChars (Term.dice n f m res fl) ++ stripPairsChars ps2) := by
        simp [List.dropWhile, hop2]
      rw [hdw1]
      dsimp only
      have hcond : (decide ((if b = true then '+' else '-') = '+') ||
          decide ((if b = true then '+' else '-') = '-')) = true := by
        cases b <;> decide
      rw [if_pos hcond]
      have hdw2 : ((' ' :: (termChars (Term.dice n f m res fl) ++ stripPairsChars ps2)).dropWhile
          (fun c2 => c2 = ' ')) = termChars (Term.dice n f m res fl) ++ stripPairsChars ps2 := by
        rw [List.dropWhile_cons_of_pos (by decide)]
        exact dropWhile_headNot (termChars_head_not_space hop _)
      rw [hdw2, parseTermC_rt (Term.dice n f m res fl) _ hop (strips_headSafe ps2)]
      dsimp only
      have hb : Term.op (decide ((if b = true then '+' else '-') = '+')) = Term.op b := by
        cases b <;> simp
      rw [hb]
      rw [loopF_eq_loop (Term.dice n f m res fl :: Term.op b :: acc)
        (by simp only [List.length_append]; omega)]
      rw [ih (Term.dice n f m res fl :: Term.op b :: acc)]
      simp [dicePairs]
    | op b2 => simp [wfOperand] at hop
    | pool rs => simp [wfOperand] at hop
    | roll ts => simp [wfOperand] at hop

theorem parse_strip {ps : List Term} (d0 : Term) (hd0 : wfOperand d0 = true)
    (hwf : WFPairs ps) :
    parseTermsC (termChars d0 ++ stripPairsChars ps) = some (d0 :: dicePairs ps) := by
  rw [parseTermsC]
  rw [dropWhile_headNot (termChars_head_not_space hd0 _)]
  rw [parseTermC_rt d0 _ hd0 (strips_headSafe ps)]
  dsimp only
  rw [loop_strip hwf [d0]]
  rfl
theorem getBaseCritRoll_strip (f : String) (n fc : Nat) (ms : List DMod)
    (fl : Option String) (ps : List Term)
    (hparse : parseRoll f = some (Term.dice n fc ms [] fl :: ps))
    (hnofl : noFlavor ps = true) (hsmall : smallDiceAfterOp ps = true) :
    getBaseCritRoll f = Except.ok (some (Term.dice n fc ms [] none :: dicePairs ps)) := by
  have hne : f ≠ "" := by
    intro h
    subst h
    rw [show parseRoll "" = none from rfl] at hparse
    exact Option.noConfusion hparse
  have hwfroll : WFRoll (Term.dice n fc ms [] fl :: ps) := parseTermsC_wf hparse
  obtain ⟨hd0wf, hpairs⟩ := hwfroll
  rw [getBaseCritRoll, if_neg hne, hparse]
  dsimp only
  have hstrip : stripFlavor (Term.dice n fc ms [] fl :: ps) =
      Term.dice n fc ms [] none :: ps := by
    simp only [stripFlavor, List.map_cons]
    rw [show stripFlavorTerm (Term.dice n fc ms [] fl) = Term.dice n fc ms [] none from rfl]
    rw [show List.map stripFlavorTerm ps = stripFlavor ps from rfl, stripFlavor_id hnofl]
  rw [hstrip]
  rw [rollChars_wf hpairs]
  rw [regexStrip_append_nopm _ _ (termChars_dice_nopm n fc ms [])]
  rw [regexStrip_pairs hpairs hnofl hsmall]
  rw [parse_strip _ (by simp [wfOperand, flavorOKb]) hpairs]
theorem dicePairs_no_num {ps : List Term} (hwf : WFPairs ps) :
    ∀ t ∈ dicePairs ps, isNumTerm t = false := by
  induction hwf with
  | nil => intro t ht; simp [dicePairs] at ht
  | cons b t2 ps2 hop hps ih =>
    intro t ht
    cases t2 with
    | dice n f m res fl =>
      rw [show dicePairs (Term.op b :: Term.dice n f m res fl :: ps2) =
        Term.op b :: Term.dice n f m res fl :: dicePairs ps2 from rfl] at ht
      rcases List.mem_cons.mp ht with rfl | ht2
      · rfl
      rcases List.mem_cons.mp ht2 with rfl | ht3
      · rfl
      · exact ih t ht3
    | num d fl =>
      exact ih t (by rwa [show dicePairs (Term.op b :: Term.num d fl :: ps2) =
        dicePairs ps2 from rfl] at ht)
    | op b2 => simp [wfOperand] at hop
    | pool rs => simp [wfOperand] at hop
    | roll ts => simp [wfOperand] at hop

theorem alter_no_num (e : Nat) (ts : List Term)
    (h : ∀ t ∈ ts, isNumTerm t = false) :
    ∀ t ∈ alterTerms e ts, isNumTerm t = false := by
  intro t ht
  rw [alterTerms, List.mem_map] at ht
  obtain ⟨x, hx, rfl⟩ := ht
  have := h x hx
  cases x <;> simp [isNumTerm] at this ⊢
/-- C3 (amended): on a dice-led base formula whose terms after the first
carry no flavor and whose dice counts after an operator are single
digits, the baseline critical derivation returns a roll over exactly the
dice portion of the formula, every dice count increased by the extra
crit dice, with every flat numeric modifier removed. -/
theorem claim_C3_amended_thm (f : String) (bt : Int) (extra : Option Nat)
    (oracle : List Nat) (n fc : Nat) (ms : List DMod) (fl : Option String)
    (ps : List Term)
    (hparse : parseRoll f = some (Term.dice n fc ms [] fl :: ps))
    (hnofl : noFlavor ps = true) (hsmall : smallDiceAfterOp ps = true) :
    getCritRoll f bt "1" extra oracle =
      Except.ok (some (evalRoll false oracle (alterTerms (extra.getD 0)
        (Term.dice n fc ms [] none :: dicePairs ps))).1) ∧
    ∀ t ∈ (evalRoll false oracle (alterTerms (extra.getD 0)
        (Term.dice n fc ms [] none :: dicePairs ps))).1.terms,
      isNumTerm t = false := by
  have hbase := getBaseCritRoll_strip f n fc ms fl ps hparse hnofl hsmall
  have hwfroll : WFRoll (Term.dice n fc ms [] fl :: ps) := parseTermsC_wf hparse
  constructor
  · rw [getCritRoll, hbase]
    dsimp only
    rw [if_neg (by decide), if_neg (by decide), if_neg (by decide)]
  · intro t ht
    refine fill_no_num false _ ?_ oracle t ht
    intro x hx
    refine alter_no_num _ _ ?_ x hx
    intro y hy
    rcases List.mem_cons.mp hy with rfl | hy2
    · rfl
    · exact dicePairs_no_num hwfroll.2 y hy2
/-- C3 (witness): on the claim's own example "1d8+3" the baseline
critical derivation rolls exactly the dice portion and drops the flat
"+3". -/
theorem claim_C3_amended_witness :
    getCritRoll "1d8+3" 7 "1" none [] =
      Except.ok (some (evalRoll false [] (alterTerms ((none : Option Nat).getD 0)
        (Term.dice 1 8 [] [] none :: dicePairs [Term.op true, Term.num 3 none]))).1) ∧
    ∀ t ∈ (evalRoll false [] (alterTerms ((none : Option Nat).getD 0)
        (Term.dice 1 8 [] [] none :: dicePairs [Term.op true, Term.num 3 none]))).1.terms,
      isNumTerm t = false :=
  claim_C3_amended_thm "1d8+3" 7 none [] 1 8 [] none
    [Term.op true, Term.num 3 none] rfl rfl rfl

/-- C3 (counterexample): "1d8 + 10d6 + 3" contains dice terms and a flat
modifier, yet the baseline critical derivation fails hard instead of
returning the dice-only expression: the crit regex backtracks into the
two-digit dice count "10", leaving the malformed intermediate formula
"1d8 0d6 " that the engine cannot parse. -/
theorem claim_C3_counterexample :
    getCritRoll "1d8 + 10d6 + 3" 7 "1" none [] = Except.error () := by
  have h1 : parseRoll "1d8 + 10d6 + 3" = some [Term.dice 1 8 [] [] none,
      Term.op true, Term.dice 10 6 [] [] none, Term.op true, Term.num 3 none] := rfl
  have h3 : rollChars (stripFlavor [Term.dice 1 8 [] [] none, Term.op true,
      Term.dice 10 6 [] [] none, Term.op true, Term.num 3 none]) =
      "1d8 + 10d6 + 3".toList := by
    rw [show stripFlavor [Term.dice 1 8 [] [] none, Term.op true,
      Term.dice 10 6 [] [] none, Term.op true, Term.num 3 none] =
      [Term.dice 1 8 [] [] none, Term.op true, Term.dice 10 6 [] [] none,
       Term.op true, Term.num 3 none] from rfl]
    simp only [rollChars, termChars, flavorChars]
    rfl
  have hbase : getBaseCritRoll "1d8 + 10d6 + 3" = Except.error () := by
    rw [getBaseCritRoll, if_neg (by decide), h1]
    dsimp only
    rw [h3]
    rw [show parseTermsC (regexStrip ("1d8 + 10d6 + 3".toList)) =
      (none : Option (List Term)) from rfl]
  rw [getCritRoll, hbase]
/-- C4: on a base formula that parses to a single flat number, the
critical derivation returns null for every policy: the stripped
dice-only expression reduces to that lone flat number, so
getBaseCritRoll yields no bonus expression and every policy branch is
bypassed. -/
theorem claim_C4_thm (s : String) (d : Nat) (fl : Option String) (bt : Int)
    (cb : String) (extra : Option Nat) (oracle : List Nat)
    (hparse : parseRoll s = some [Term.num d fl]) :
    getCritRoll s bt cb extra oracle = Except.ok none := by
  have hne : s ≠ "" := by
    intro h
    subst h
    rw [show parseRoll "" = none from rfl] at hparse
    exact Option.noConfusion hparse
  have hbase : getBaseCritRoll s = Except.ok none := by
    rw [getBaseCritRoll, if_neg hne, hparse]
    dsimp only
    have h1 : rollChars (stripFlavor [Term.num d fl]) = natChars d := by
      rw [show stripFlavor [Term.num d fl] = [Term.num d none] from rfl]
      rw [show rollChars [Term.num d none] = termChars (Term.num d none) from rfl]
      simp [termChars, flavorChars]
    rw [h1]
    rw [regexStrip_nopm _ (fun c hc => digit_not_pm (natChars_digits d c hc))]
    have h2 : parseTermsC (natChars d) = some [Term.num d none] := by
      have h3 := parseTermsC_rt (Term.num d none) [] []
        (by simp [wfOperand, flavorOKb]) WFPairs.nil headSafe_nil
      rw [show rollChars [Term.num d none] ++ [] = natChars d ++ [] from
        (by simp [rollChars, termChars, flavorChars])] at h3
      rw [List.append_nil] at h3
      rw [h3, loop_nil]
      rfl
    rw [h2]
  rw [getCritRoll, hbase]

/-- C4 (witness): the purely flat formula "5" yields null under a
policy that would otherwise maximize. -/
theorem claim_C4_witness :
    getCritRoll "5" 9 "3" none [] = Except.ok none :=
  claim_C4_thm "5" 5 none 9 "3" none [] rfl

/-- C7: a critBehavior value outside the recognized codes "2", "3" and
"4" falls through every policy branch, so the critical derivation
returns exactly the baseline (policy "1") result. -/
theorem claim_C7_thm (f : String) (bt : Int) (cb : String) (extra : Option Nat)
    (oracle : List Nat) (h2 : cb ≠ "2") (h3 : cb ≠ "3") (h4 : cb ≠ "4") :
    getCritRoll f bt cb extra oracle = getCritRoll f bt "1" extra oracle := by
  rw [getCritRoll, getCritRoll]
  cases hb : getBaseCritRoll f with
  | error e => rfl
  | ok o =>
    cases o with
    | none => rfl
    | some ct =>
      dsimp only
      rw [if_neg h2, if_neg h3, if_neg h4,
        if_neg (by decide), if_neg (by decide), if_neg (by decide)]

/-- C7 (witness): the unrecognized policy code "7" behaves exactly like
the baseline policy "1" on a dice formula. -/
theorem claim_C7_witness :
    getCritRoll "1d8+3" 7 "7" none [] = getCritRoll "1d8+3" 7 "1" none [] :=
  claim_C7_thm "1d8+3" 7 "7" none [] (by decide) (by decide) (by decide)
theorem getBaseCritRoll_wf {f : String} {critTs : List Term}
    (h : getBaseCritRoll f = Except.ok (some critTs)) : WFRoll critTs := by
  unfold getBaseCritRoll at h
  split at h
  · exact absurd h (by simp)
  · split at h
    · exact absurd h (by simp)
    · rename_i ts hts
      split at h
      · exact absurd h (by simp)
      · rename_i ct hct
        split at h
        · exact absurd h (by simp)
        · simp at h
          subst h
          exact parseTermsC_wf hct

theorem toList3 (a b : List Char) :
    ((⟨a⟩ : String) ++ "+" ++ (⟨b⟩ : String)).toList = a ++ '+' :: b := by
  show (a ++ ['+']) ++ b = a ++ '+' :: b
  simp

theorem alter_wfroll (e : Nat) {ts : List Term} (h : WFRoll ts) :
    WFRoll (alterTerms e ts) := by
  cases ts with
  | nil => exact absurd h (by simp [WFRoll])
  | cons t ps =>
    obtain ⟨h1, h2⟩ := h
    simp only [alterTerms, List.map_cons]
    refine ⟨?_, ?_⟩
    · cases t with
      | dice n f m res fl => simpa [wfOperand] using h1
      | num d fl => exact h1
      | op b => exact h1
      | pool rs => exact h1
      | roll ts2 => exact h1
    · have h3 := alter_wfpairs e h2
      simpa only [alterTerms] using h3
/-- C2: under policy "3" the critical derivation computes maxDifference
as the base formula's all-maximum total minus the supplied base total,
appends it to the critical formula, and evaluates the combination at
all-maximum, so the returned total is the maximized crit formula total
plus maxDifference. -/
theorem claim_C2_thm (f : String) (baseTotal : Int) (extra : Option Nat)
    (oracle : List Nat) (critTs baseTs : List Term)
    (hbase : getBaseCritRoll f = Except.ok (some critTs))
    (hparse : parseRoll f = some baseTs)
    (hdiff : 0 ≤ maxTotal baseTs - baseTotal) :
    ∃ r : BRRoll, getCritRoll f baseTotal "3" extra oracle = Except.ok (some r) ∧
      r.total = maxTotal (alterTerms (extra.getD 0) critTs) +
        (maxTotal baseTs - baseTotal) := by
  have hwf := getBaseCritRoll_wf hbase
  obtain ⟨t0, ps, rfl⟩ : ∃ t0 ps, critTs = t0 :: ps := by
    cases critTs with
    | nil => exact absurd hwf (by simp [WFRoll])
    | cons a l => exact ⟨a, l, rfl⟩
  have hAwf := alter_wfroll (extra.getD 0) hwf
  cases hA : alterTerms (extra.getD 0) (t0 :: ps) with
  | nil =>
    rw [hA] at hAwf
    exact absurd hAwf (by simp [WFRoll])
  | cons a0 aps =>
  rw [hA] at hAwf
  obtain ⟨ha0, haps⟩ := hAwf
  have hcomb : parseRoll (rollFormula
      (evalRoll false oracle (alterTerms (extra.getD 0) (t0 :: ps))).1.terms ++ "+" ++
      (⟨intChars (maxTotal baseTs - baseTotal)⟩ : String)) =
      some ((a0 :: aps) ++ [Term.op true,
        Term.num (maxTotal baseTs - baseTotal).toNat none]) := by
    rw [parseRoll, rollFormula, toList3]
    rw [intChars_nonneg hdiff]
    rw [show (evalRoll false oracle (alterTerms (extra.getD 0) (t0 :: ps))).1.terms =
      (fillTerms false oracle (alterTerms (extra.getD 0) (t0 :: ps))).1 from rfl]
    rw [fill_rollChars false (alterTerms (extra.getD 0) (t0 :: ps)) oracle]
    rw [hA]
    rw [parseTermsC_rt a0 aps ('+' :: natChars (maxTotal baseTs - baseTotal).toNat)
      ha0 haps (headSafe_cons _ (Or.inr (Or.inl rfl)))]
    rw [loop_plus_num]
    simp [List.reverseAux_eq]
  rw [getCritRoll, hbase]
  dsimp only
  rw [if_neg (by decide), if_pos rfl, hparse]
  dsimp only
  rw [hcomb]
  dsimp only
  refine ⟨_, rfl, ?_⟩
  show totalOfTerms (fillTerms true [] ((a0 :: aps) ++ [Term.op true,
    Term.num (maxTotal baseTs - baseTotal).toNat none])).1 = _
  rw [fillTrue_append]
  rw [show (fillTerms true [] [Term.op true,
    Term.num (maxTotal baseTs - baseTotal).toNat none]).1 =
    [Term.op true, Term.num (maxTotal baseTs - baseTotal).toNat none] from rfl]
  show totalAux ((fillTerms true [] (a0 :: aps)).1 ++ [Term.op true,
    Term.num (maxTotal baseTs - baseTotal).toNat none]) true 0 = _
  rw [totalAux_append_num]
  rw [Int.toNat_of_nonneg hdiff]
  rfl
/-- C2 (witness): on "1d8+3" with base total 7, policy "3" returns a
roll whose total is the maximized crit total 8 plus maxDifference 4. -/
theorem claim_C2_witness :
    ∃ r : BRRoll, getCritRoll "1d8+3" 7 "3" none [] = Except.ok (some r) ∧
      r.total = maxTotal (alterTerms ((none : Option Nat).getD 0)
          [Term.dice 1 8 [] [] none]) +
        (maxTotal [Term.dice 1 8 [] [] none, Term.op true, Term.num 3 none] - 7) :=
  claim_C2_thm "1d8+3" 7 none [] [Term.dice 1 8 [] [] none]
    [Term.dice 1 8 [] [] none, Term.op true, Term.num 3 none]
    (getBaseCritRoll_strip "1d8+3" 1 8 [] none [Term.op true, Term.num 3 none]
      rfl rfl rfl)
    rfl (by decide)
